import Mathlib

/-!
Verification of `decorate_with_symlinks.py`.

The script walks all files under a source root and, per file, computes a
destination path (optionally rewriting a substring), ensures the destination
directory exists, resolves conflicts with a configurable policy, and creates
(or in delete mode removes) a symlink.

The embedding below models:
* Python string/path primitives (`str.replace`, `str.lower`,
  `posixpath.join/dirname/normpath/abspath/relpath`) as executable functions
  on `String` (whose logical model in this Lean version is `List Char`);
* the filesystem as a map from lexically-normalized path strings to entries
  (directory, regular file, or symlink storing a target string), with
  `os.path.exists` following symlink entries by key lookup (fuel-bounded, as
  the OS bounds symlink traversal), `os.path.islink`/`os.path.lexists` as
  plain entry inspection, `os.remove` failing on directories, `os.makedirs`
  as the recursive directory-chain creation which fails without effect when a
  non-directory entry occupies the chain, and `os.symlink` as entry insertion;
* aliasing through symlinked parent directories and the POSIX double-slash
  root are outside the model.

Every function named after a Python function in the source follows that
function's code; the driver loop of `decorate_symlinks` is modelled with the
walk's file list and the interactive answers supplied as inputs, and it
returns the final filesystem, the trace of mutation events, the unconsumed
answers, and a completion status.
-/

namespace Decorate

/-- Python `str.lower` (ASCII range, matching `Char.toLower`). -/
def lowerS (s : String) : String := ⟨s.data.map Char.toLower⟩

/-- Split a character list at every occurrence of a separator
(Python `str.split` with a one-character separator). -/
def splitSep (sep : Char) : List Char → List (List Char)
  | [] => [[]]
  | c :: cs =>
    match splitSep sep cs with
    | [] => [[c]]
    | t :: ts => if c = sep then [] :: t :: ts else (c :: t) :: ts

/-- A filesystem entry: directory, regular file, or symlink storing a target
string. -/
inductive Entry where
  | dir : Entry
  | file : Entry
  | link : String → Entry
deriving DecidableEq

/-- Split a character list at every slash (Python `p.split('/')`). -/
def splitSlash : List Char → List (List Char) := splitSep '/'

/-- Join components with slashes (no leading or trailing slash). -/
def interSlash : List (List Char) → List Char
  | [] => []
  | [c] => c
  | c :: cs => c ++ '/' :: interSlash cs

/-- One step of `posixpath.normpath`'s component scan, on a reversed
accumulator. -/
def normStep (absFlag : Bool) (acc : List (List Char)) (comp : List Char) : List (List Char) :=
  if comp = [] ∨ comp = ['.'] then acc
  else if comp = ['.', '.'] then
    match acc with
    | [] => if absFlag then [] else [comp]
    | a :: rest => if a = ['.', '.'] then comp :: a :: rest else rest
  else comp :: acc

/-- `posixpath.normpath`'s component normalization. -/
def normComps (absFlag : Bool) (l : List (List Char)) : List (List Char) :=
  (l.foldl (normStep absFlag) []).reverse

/-- Whether a path is absolute (starts with a slash). -/
def isAbsL (l : List Char) : Bool := l.head? = some '/'

/-- `posixpath.normpath` (lexical; the double-leading-slash special case is
not modelled). -/
def normPath (p : String) : String :=
  let l := p.data
  let cs := normComps (isAbsL l) (splitSlash l)
  if isAbsL l then ⟨'/' :: interSlash cs⟩
  else if cs = [] then "." else ⟨interSlash cs⟩

/-- The model filesystem: entries keyed by lexically-normalized path
strings. -/
def FS : Type := String → Option Entry

/-- Look up the entry at a path (`lstat`-like, no final-link following). -/
def FS.get (fs : FS) (p : String) : Option Entry := fs (normPath p)

/-- Overwrite the entry at a path. -/
def FS.set (fs : FS) (p : String) (e : Option Entry) : FS :=
  fun q => if q = normPath p then e else fs q

/-- `os.path.lexists` / the `exists-or-islink` test: an entry is present. -/
def lexists (fs : FS) (p : String) : Bool := (FS.get fs p).isSome

/-- `os.path.exists`: entry present, following symlink entries (fuel-bounded,
as the OS bounds symlink traversal and reports `False` on overflow). -/
def pexists (fs : FS) : Nat → String → Bool
  | 0, _ => false
  | fuel + 1, p =>
    match FS.get fs p with
    | some (.link v) => pexists fs fuel v
    | some _ => true
    | none => false

/-- Symlink-following fuel (the OS's `ELOOP` bound). -/
def FUEL : Nat := 40

/-- `os.path.isdir`: resolves to a directory entry. -/
def isdirF (fs : FS) : Nat → String → Bool
  | 0, _ => false
  | fuel + 1, p =>
    match FS.get fs p with
    | some .dir => true
    | some (.link v) => isdirF fs fuel v
    | _ => false

/-- Strip trailing slashes (`head.rstrip('/')` in `posixpath.dirname`). -/
def dropTrailSlash (l : List Char) : List Char :=
  (l.reverse.dropWhile (fun c => c = '/')).reverse

/-- `posixpath.dirname` on character lists. -/
def dirnameL (l : List Char) : List Char :=
  let head := (l.reverse.dropWhile (fun c => c ≠ '/')).reverse
  if head.all (fun c => c = '/') then head else dropTrailSlash head

/-- `os.path.dirname`. -/
def os_path_dirname (p : String) : String := ⟨dirnameL p.data⟩

/-- `os.path.join` for two arguments (POSIX). -/
def os_path_join (a b : String) : String :=
  if isAbsL b.data then b
  else if a.data = [] ∨ a.data.getLast? = some '/' then ⟨a.data ++ b.data⟩
  else ⟨a.data ++ '/' :: b.data⟩

/-- Nonempty path components (`[x for x in p.split('/') if x]`). -/
def compsOf (p : String) : List (List Char) :=
  (splitSlash p.data).filter (fun c => c ≠ [])

/-- `os.path.abspath`, with the process working directory made explicit. -/
def os_path_abspath (cwd p : String) : String :=
  normPath (if isAbsL p.data then p else os_path_join cwd p)

/-- Length of the common prefix of two component lists. -/
def commonLen : List (List Char) → List (List Char) → Nat
  | a :: as, b :: bs => if a = b then commonLen as bs + 1 else 0
  | _, _ => 0

/-- `os.path.relpath`, with the process working directory made explicit. -/
def os_path_relpath (cwd p start : String) : String :=
  let pc := compsOf (os_path_abspath cwd p)
  let sc := compsOf (os_path_abspath cwd start)
  let i := commonLen pc sc
  let rel := List.replicate (sc.length - i) ['.', '.'] ++ pc.drop i
  if rel = [] then "." else ⟨interSlash rel⟩

/-- Python `str.replace` with an empty search string: the replacement is
inserted before every character and at the end. -/
def emptyRep (repl : List Char) : List Char → List Char
  | [] => repl
  | c :: cs => repl ++ c :: emptyRep repl cs

/-- Python `str.replace` with a nonempty search string: leftmost
non-overlapping occurrences, fuel-bounded by the string length. -/
def repFuel (search repl : List Char) : Nat → List Char → List Char
  | 0, s => s
  | _ + 1, [] => []
  | fuel + 1, c :: cs =>
    if search.isPrefixOf (c :: cs) then
      repl ++ repFuel search repl fuel (List.drop (search.length - 1) cs)
    else c :: repFuel search repl fuel cs

/-- Python `str.replace` (all occurrences). -/
def str_replace (s search repl : String) : String :=
  if search.data = [] then ⟨emptyRep repl.data s.data⟩
  else ⟨repFuel search.data repl.data s.data.length s.data⟩

/-- `replace_in_path` from the source: the replacement applies only to the
destination path. -/
def replace_in_path (path search repl : String) (is_destination : Bool) : String :=
  if is_destination then str_replace path search repl else path

/-- The `--mode` values. -/
inductive Mode where
  | create : Mode
  | delete : Mode
deriving DecidableEq

/-- The `--on-exists` values. -/
inductive OnExists where
  | ask : OnExists
  | fail : OnExists
  | skip : OnExists
  | execute : OnExists
deriving DecidableEq

/-- `VALID_ACTION_VALUES` from the source. -/
def VALID_ACTION_VALUES : List String := ["ask", "fail", "skip", "execute"]

/-- `DEFAULT_ACTION_VALUES` from the source (the default `--on-exists`). -/
def DEFAULT_ACTION_VALUES : String := "ask"

/-- `arg.split('=')[1]`: the text between the first and second `=`. -/
def argEqValue (arg : String) : String := ⟨((splitSep '=' arg.data).drop 1).headD []⟩

/-- `main`'s scan of `sys.argv` for `--on-exists=`: each match is validated
(`sys.exit(1)`, modelled as `Except.error 1`, on an invalid value) and the
last match wins; the default stands when no argument matches. -/
def main_on_exists_action (argv : List String) : Except Nat String :=
  argv.foldlM
    (fun acc arg =>
      if "--on-exists=".data.isPrefixOf arg.data then
        let v := argEqValue arg
        if v ∈ VALID_ACTION_VALUES then Except.ok v else Except.error 1
      else Except.ok acc)
    DEFAULT_ACTION_VALUES

/-- The whole configuration handed to `decorate_symlinks`, plus the process
working directory. -/
structure Cfg where
  source_root : String
  dest_root : String
  search_string : String
  replace_string : String
  relative_symlink : Bool
  mode : Mode
  action : OnExists
  cwd : String

/-- `convert_path_to_relative` from the source. -/
def convert_path_to_relative (cwd src dest_rootp : String) : String :=
  os_path_relpath cwd src dest_rootp

/-- `convert_path_to_absolute` from the source. -/
def convert_path_to_absolute (cwd p : String) : String := os_path_abspath cwd p

/-- The source root after `decorate_symlinks`'s preamble (absolute, then
cwd-relative when `--relative`). -/
def effSourceRoot (c : Cfg) : String :=
  let a := convert_path_to_absolute c.cwd c.source_root
  if c.relative_symlink then convert_path_to_relative c.cwd a c.cwd else a

/-- The destination root after `decorate_symlinks`'s preamble. -/
def effDestRoot (c : Cfg) : String :=
  let a := convert_path_to_absolute c.cwd c.dest_root
  if c.relative_symlink then convert_path_to_relative c.cwd a c.cwd else a

/-- `relative_path` in the loop body: rewrite the source path, then take it
relative to the source root. -/
def relOf (c : Cfg) (file_path : String) : String :=
  os_path_relpath c.cwd
    (replace_in_path file_path c.search_string c.replace_string true)
    (effSourceRoot c)

/-- `target_file` in the loop body. -/
def targetOf (c : Cfg) (file_path : String) : String :=
  os_path_join (effDestRoot c) (relOf c file_path)

/-- A filesystem mutation performed by the run. -/
inductive Event where
  | mkdir : String → Event
  | removed : String → Event
  | symlinked : String → String → Event
deriving DecidableEq

/-- The path a mutation writes to (for `symlinked` the link's location). -/
def Event.path : Event → String
  | .mkdir p => p
  | .removed p => p
  | .symlinked _ p => p

/-- The directory chain `os.makedirs` visits: the path and its successive
dirnames (fuel-bounded; the chain shortens strictly, see `ancChain_unfold`). -/
def ancChainF : Nat → String → List String
  | 0, p => [p]
  | fuel + 1, p =>
    let d := os_path_dirname p
    if d = p ∨ d = "" then [p] else p :: ancChainF fuel d

/-- The directory chain of a path, leaf first. -/
def ancChain (p : String) : List String := ancChainF (p.data.length + 1) p

/-- Whether every entry on a chain is a directory or absent (otherwise
`os.makedirs` raises and creates nothing that matters to its caller). -/
def conflictFree (fs : FS) (chain : List String) : Bool :=
  chain.all fun a =>
    match FS.get fs a with
    | none => true
    | some .dir => true
    | some _ => false

/-- Create a directory entry at every absent key of a chain. -/
def mkAllFs (fs : FS) (chain : List String) : FS :=
  fun q => if (∃ a ∈ chain, normPath a = q) ∧ fs q = none then some .dir else fs q

/-- The creation events of `mkAllFs`. -/
def mkdirEvents (fs : FS) (chain : List String) : List Event :=
  (chain.filter fun a => (FS.get fs a).isNone).map Event.mkdir

/-- `create_directory` from the source: skip when the path exists (following
links), otherwise `os.makedirs`, with any exception caught and ignored. -/
def create_directory (fs : FS) (dir_path : String) : FS × List Event :=
  if pexists fs FUEL dir_path then (fs, [])
  else
    let chain := ancChain dir_path
    if conflictFree fs chain then (mkAllFs fs chain, mkdirEvents fs chain) else (fs, [])

/-- `remove_existing_file` from the source: `os.remove` guarded by
`os.path.exists` alone (so a broken symlink is not removed); `os.remove` on a
directory raises and is caught. -/
def remove_existing_file (fs : FS) (file_path : String) : FS × List Event :=
  if pexists fs FUEL file_path then
    match FS.get fs file_path with
    | some .dir => (fs, [])
    | some _ => (FS.set fs file_path none, [.removed file_path])
    | none => (fs, [])
  else (fs, [])

/-- The stored link target: relative to the destination file's directory when
`--relative`, otherwise the source path as given. -/
def linkValue (c : Cfg) (src dest : String) : String :=
  if c.relative_symlink then os_path_relpath c.cwd src (os_path_dirname dest) else src

/-- `create_symlink` from the source: remove an entry present at `dest`
(`os.remove` on a directory raises, caught, and no link is made), then
`os.symlink`. -/
def create_symlink (fs : FS) (src dest : String) (c : Cfg) : FS × List Event :=
  match FS.get fs dest with
  | some .dir => (fs, [])
  | some _ =>
    let v := linkValue c src dest
    (FS.set (FS.set fs dest none) dest (some (.link v)), [.removed dest, .symlinked v dest])
  | none =>
    let v := linkValue c src dest
    (FS.set fs dest (some (.link v)), [.symlinked v dest])

/-- The replace/delete responses accepted by the `ask` prompt, per mode. -/
def execute_choices : Mode → List String
  | .create => ["r", "replace"]
  | .delete => ["d", "delete"]

/-- Outcome of `handle_existing_file_behavior` (`eof` models `input()`
raising `EOFError`, which crashes the run). -/
inductive HandleRes where
  | executed : HandleRes
  | skipped : HandleRes
  | failed : HandleRes
  | eof : HandleRes
deriving DecidableEq

/-- Classification of one lowercased prompt response: `none` re-prompts.
The source tests membership in `['f', 'Failed']`; `'Failed'` is compared
against an already-lowercased string. -/
def askStep (mode : Mode) (response : String) : Option HandleRes :=
  let user_choice := lowerS response
  if user_choice ∈ execute_choices mode then some .executed
  else if user_choice ∈ ["s", "skip"] then some .skipped
  else if user_choice ∈ ["f", "Failed"] then some .failed
  else none

/-- The `while True` prompt loop of the `ask` policy over the remaining
interactive answers. -/
def ask_loop (mode : Mode) : List String → HandleRes × List String
  | [] => (.eof, [])
  | s :: rest =>
    match askStep mode s with
    | some r => (r, rest)
    | none => ask_loop mode rest

/-- `handle_existing_file_behavior` from the source, with the filesystem and
the remaining interactive answers threaded through (the execute outcome calls
`remove_existing_file`). -/
def handle_existing_file_behavior (c : Cfg) (target_file : String) (fs : FS)
    (inputs : List String) : HandleRes × FS × List Event × List String :=
  match c.action with
  | .fail => (.failed, fs, [], inputs)
  | .skip => (.skipped, fs, [], inputs)
  | .execute =>
    let r := remove_existing_file fs target_file
    (.executed, r.1, r.2, inputs)
  | .ask =>
    match ask_loop c.mode inputs with
    | (.executed, rest) =>
      let r := remove_existing_file fs target_file
      (.executed, r.1, r.2, rest)
    | (r, rest) => (r, fs, [], rest)

/-- How a run ends: normally, by a `failed` conflict (the loop returns), or by
an uncaught `EOFError` at the prompt. -/
inductive RunStatus where
  | completed : RunStatus
  | failed : RunStatus
  | eof : RunStatus
deriving DecidableEq

/-- The outcome of a run: final filesystem, mutation trace, unconsumed
interactive answers, and status. -/
structure RunResult where
  fs : FS
  events : List Event
  inputs : List String
  status : RunStatus

/-- The body of `decorate_symlinks`'s loop for one discovered file. A `some`
status aborts the run. -/
def processFile (c : Cfg) (fs : FS) (inputs : List String) (file_path : String) :
    FS × List Event × List String × Option RunStatus :=
  let target_file := targetOf c file_path
  let r1 := create_directory fs (os_path_dirname target_file)
  let fs1 := r1.1
  let e1 := r1.2
  if lexists fs1 target_file then
    match handle_existing_file_behavior c target_file fs1 inputs with
    | (.failed, fs2, e2, inp2) => (fs2, e1 ++ e2, inp2, some .failed)
    | (.eof, fs2, e2, inp2) => (fs2, e1 ++ e2, inp2, some .eof)
    | (.skipped, fs2, e2, inp2) => (fs2, e1 ++ e2, inp2, none)
    | (.executed, fs2, e2, inp2) =>
      if c.mode = .create then
        let r3 := create_symlink fs2 file_path target_file c
        (r3.1, e1 ++ e2 ++ r3.2, inp2, none)
      else (fs2, e1 ++ e2, inp2, none)
  else
    if c.mode = .create then
      let r2 := create_symlink fs1 file_path target_file c
      (r2.1, e1 ++ r2.2, inputs, none)
    else (fs1, e1, inputs, none)

/-- The walk loop of `decorate_symlinks` over the discovered files. -/
def decorate_symlinks (c : Cfg) : List String → FS → List String → RunResult
  | [], fs, inputs => ⟨fs, [], inputs, .completed⟩
  | f :: rest, fs, inputs =>
    match processFile c fs inputs f with
    | (fs1, evs, inp1, some st) => ⟨fs1, evs, inp1, st⟩
    | (fs1, evs, inp1, none) =>
      let r := decorate_symlinks c rest fs1 inp1
      ⟨r.fs, evs ++ r.events, r.inputs, r.status⟩

/-- The process exit status of a full run: `sys.exit(1)` when a root is not a
directory, 1 on an uncaught `EOFError`, and otherwise 0 — `decorate_symlinks`
returns normally even after a fatal conflict. -/
def decorateExit (c : Cfg) (files : List String) (fs : FS) (inputs : List String) : Nat :=
  if isdirF fs FUEL c.source_root = false then 1
  else if isdirF fs FUEL c.dest_root = false then 1
  else
    match (decorate_symlinks c files fs inputs).status with
    | .eof => 1
    | _ => 0

/-! Concrete run scenarios used to witness or refute the claims. -/

/-- A source tree `/s/a.txt` and an empty destination `/d`. -/
def fsEscape : FS := fun p =>
  if p = "/" then some .dir
  else if p = "/s" then some .dir
  else if p = "/s/a.txt" then some .file
  else if p = "/d" then some .dir
  else none

/-- A rewrite rule that introduces `..` into the destination path. -/
def cfgEscape : Cfg := ⟨"/s", "/d", "a.txt", "../evil", false, .create, .execute, "/c"⟩

/-- An empty-search, nonempty-replace rewrite rule. -/
def cfgEmptySearch : Cfg := ⟨"/s", "/d", "", "X", false, .create, .execute, "/c"⟩

/-- Two source files and a destination where the first target is occupied. -/
def fsConflict : FS := fun p =>
  if p = "/" then some .dir
  else if p = "/s" then some .dir
  else if p = "/s/a" then some .file
  else if p = "/s/b" then some .file
  else if p = "/d" then some .dir
  else if p = "/d/a" then some .file
  else none

/-- A create run under the `fail` policy. -/
def cfgFail : Cfg := ⟨"/s", "/d", "", "", false, .create, .fail, "/c"⟩

/-- A destination holding a broken symlink at the computed target. -/
def fsBroken : FS := fun p =>
  if p = "/" then some .dir
  else if p = "/s" then some .dir
  else if p = "/s/a" then some .file
  else if p = "/d" then some .dir
  else if p = "/d/a" then some (.link "/gone")
  else none

/-- A delete run under the `execute` policy. -/
def cfgDelete : Cfg := ⟨"/s", "/d", "", "", false, .delete, .execute, "/c"⟩

/-- A plain source tree with a nested file and an empty destination. -/
def fsPlain : FS := fun p =>
  if p = "/" then some .dir
  else if p = "/s" then some .dir
  else if p = "/s/a" then some .dir
  else if p = "/s/a/b.txt" then some .file
  else if p = "/d" then some .dir
  else none

/-- A create run under the `execute` policy, absolute links. -/
def cfgCreate : Cfg := ⟨"/s", "/d", "", "", false, .create, .execute, "/c"⟩

/-- A delete run under the `execute` policy over `fsPlain` (the destination
directory `/d/a` is absent and gets created). -/
def cfgDeletePlain : Cfg := ⟨"/s", "/d", "", "", false, .delete, .execute, "/c"⟩

/-- A create run under the `skip` policy. -/
def cfgSkip : Cfg := ⟨"/s", "/d", "", "", false, .create, .skip, "/c"⟩

/-- A create run with `--relative` links. -/
def cfgRelative : Cfg := ⟨"/s", "/d", "", "", true, .create, .execute, "/c"⟩

/-- A plain path component: nonempty, slash-free, and not `.` or `..`. -/
def plainComp (comp : List Char) : Prop :=
  comp ≠ [] ∧ '/' ∉ comp ∧ comp ≠ ['.'] ∧ comp ≠ ['.', '.']

instance (comp : List Char) : Decidable (plainComp comp) := by
  rw [plainComp]
  infer_instance

/-- All components of a list are plain. -/
def plainList (L : List (List Char)) : Prop := ∀ comp ∈ L, plainComp comp

instance (L : List (List Char)) : Decidable (plainList L) := by
  rw [plainList]
  infer_instance

/-- A raw component: nonempty and slash-free (`.` and `..` allowed). -/
def rawList (L : List (List Char)) : Prop := ∀ comp ∈ L, comp ≠ [] ∧ '/' ∉ comp

/-- Whether `p` lies in the subtree rooted at `d` (as path strings: equal to
`d`, or extending `d` past a slash). -/
def inSubtree (d p : String) : Bool :=
  if p = d then true
  else (if d.data.getLast? = some '/' then d.data else d.data ++ ['/']).isPrefixOf p.data

/-- The directory-ensuring part of the per-file state transformation (the
state effect of `create_directory`). -/
def stepDirFs (c : Cfg) (fs : FS) (f : String) : FS :=
  if FS.get fs (os_path_dirname (targetOf c f)) = none then
    (if conflictFree fs (ancChain (os_path_dirname (targetOf c f))) then
      mkAllFs fs (ancChain (os_path_dirname (targetOf c f))) else fs)
  else fs

/-- The per-file state transformation of a create-mode `execute`-policy run:
ensure the directory chain, then place the link unless a directory occupies
the target (proved equal to `processFile`'s filesystem effect below). -/
def stepS (c : Cfg) (fs : FS) (f : String) : FS :=
  match FS.get (stepDirFs c fs f) (targetOf c f) with
  | some .dir => stepDirFs c fs f
  | _ => FS.set (stepDirFs c fs f) (targetOf c f)
      (some (.link (linkValue c f (targetOf c f))))

/-- Two filesystems agreeing everywhere except at one key, where both hold
some non-directory entry (the shape in which a rerun's pending overwrite
differs from the first run's final state). -/
def SameOff (k : String) (fs fs2 : FS) : Prop :=
  (∀ q, q ≠ k → fs q = fs2 q) ∧
  (∃ e e2, fs k = some e ∧ fs2 k = some e2 ∧ e ≠ Entry.dir ∧ e2 ≠ Entry.dir)

/-! Basic lemmas about the string and filesystem model. -/

theorem emptyRep_nil : ∀ s : List Char, emptyRep [] s = s := by
  intro s
  induction s with
  | nil => rfl
  | cons c cs ih => simp [emptyRep, ih]

theorem str_replace_empty_empty (s : String) : str_replace s "" "" = s := by
  show str_replace s ⟨[]⟩ ⟨[]⟩ = s
  rw [str_replace]
  simp [emptyRep_nil]

theorem toLower_ne_F : ∀ c : Char, Char.toLower c ≠ 'F' := by
  intro c
  have hten : ∀ (n : Nat) (h : n.isValidChar), (Char.ofNat n).toNat = n := by
    intro n h
    simp [Char.ofNat, h, Char.ofNatAux, Char.toNat, UInt32.toNat, BitVec.toNat_ofNatLt]
  unfold Char.toLower
  by_cases h : c.toNat ≥ 65 ∧ c.toNat ≤ 90
  · simp only [if_pos h]
    intro hF
    have h2 : (Char.ofNat (c.toNat + 32)).toNat = 'F'.toNat := by rw [hF]
    rw [hten _ (Or.inl (by omega))] at h2
    have h3 : 'F'.toNat = 70 := by decide
    omega
  · simp only [if_neg h]
    intro hF
    subst hF
    exact h (by decide)

theorem lowerS_ne_Failed (s : String) : lowerS s ≠ "Failed" := by
  intro h
  have hd : s.data.map Char.toLower = "Failed".data := congrArg String.data h
  have e : "Failed".data = 'F' :: ['a', 'i', 'l', 'e', 'd'] := by decide
  cases hs : s.data with
  | nil =>
    rw [hs] at hd
    rw [e] at hd
    exact List.noConfusion hd
  | cons c t =>
    rw [hs, e] at hd
    simp only [List.map_cons, List.cons.injEq] at hd
    exact toLower_ne_F c hd.1

theorem get_set_self (fs : FS) (p : String) (e : Option Entry) :
    FS.get (FS.set fs p e) p = e := by
  simp [FS.get, FS.set]

theorem set_raw (fs : FS) (p : String) (e : Option Entry) (q : String) :
    FS.set fs p e q = if q = normPath p then e else fs q := rfl

theorem pexists_of_get_none (fs : FS) (p : String) (h : FS.get fs p = none) :
    pexists fs FUEL p = false := by
  show pexists fs 40 p = false
  rw [show (40 : Nat) = 39 + 1 from rfl, pexists, h]

theorem pexists_of_get_dir (fs : FS) (p : String) (h : FS.get fs p = some .dir) :
    pexists fs FUEL p = true := by
  show pexists fs 40 p = true
  rw [show (40 : Nat) = 39 + 1 from rfl, pexists, h]

theorem pexists_of_get_file (fs : FS) (p : String) (h : FS.get fs p = some .file) :
    pexists fs FUEL p = true := by
  show pexists fs 40 p = true
  rw [show (40 : Nat) = 39 + 1 from rfl, pexists, h]

theorem mkAllFs_of_some (fs : FS) (chain : List String) (q : String) (e : Entry)
    (h : fs q = some e) : mkAllFs fs chain q = some e := by
  rw [mkAllFs]
  rw [if_neg]
  · exact h
  · intro hc
    rw [h] at hc
    exact Option.noConfusion hc.2

/-! Preservation lemmas: directory entries survive every operation, and
entries survive the operations of a `skip`-policy run. -/

theorem create_directory_fs_of_some (fs : FS) (d q : String) (e : Entry)
    (h : fs q = some e) : (create_directory fs d).1 q = some e := by
  rw [create_directory]
  by_cases h1 : pexists fs FUEL d
  · rw [if_pos h1]
    exact h
  · rw [if_neg h1]
    by_cases h2 : conflictFree fs (ancChain d)
    · simp only [if_pos h2]
      exact mkAllFs_of_some fs _ q e h
    · simp only [if_neg h2]
      exact h

theorem ne_key_of_get (fs : FS) (p q : String) (e e' : Entry)
    (hq : fs q = some e) (hg : FS.get fs p = some e') (hne : e ≠ e') :
    q ≠ normPath p := by
  intro hqe
  rw [hqe, show fs (normPath p) = FS.get fs p from rfl, hg] at hq
  rw [Option.some.injEq] at hq
  exact hne hq.symm

theorem remove_existing_file_of_dir (fs : FS) (p q : String)
    (h : fs q = some .dir) : (remove_existing_file fs p).1 q = some .dir := by
  rw [remove_existing_file]
  by_cases h1 : pexists fs FUEL p
  · rw [if_pos h1]
    cases hg : FS.get fs p with
    | none => exact h
    | some e =>
      cases e with
      | dir => exact h
      | file =>
        have hq := ne_key_of_get fs p q _ _ h hg (by simp)
        show FS.set fs p none q = some .dir
        rw [set_raw, if_neg hq]
        exact h
      | link v =>
        have hq := ne_key_of_get fs p q _ _ h hg (by simp)
        show FS.set fs p none q = some .dir
        rw [set_raw, if_neg hq]
        exact h
  · rw [if_neg h1]
    exact h

theorem create_symlink_of_dir (fs : FS) (src dest : String) (c : Cfg) (q : String)
    (h : fs q = some .dir) : (create_symlink fs src dest c).1 q = some .dir := by
  rw [create_symlink]
  cases hg : FS.get fs dest with
  | none =>
    have hq : q ≠ normPath dest := by
      intro hqe
      rw [hqe, show fs (normPath dest) = FS.get fs dest from rfl, hg] at h
      exact Option.noConfusion h
    show FS.set fs dest _ q = some .dir
    rw [set_raw, if_neg hq]
    exact h
  | some e =>
    cases e with
    | dir => exact h
    | file =>
      have hq := ne_key_of_get fs dest q _ _ h hg (by simp)
      show FS.set (FS.set fs dest none) dest _ q = some .dir
      rw [set_raw, if_neg hq, set_raw, if_neg hq]
      exact h
    | link v =>
      have hq := ne_key_of_get fs dest q _ _ h hg (by simp)
      show FS.set (FS.set fs dest none) dest _ q = some .dir
      rw [set_raw, if_neg hq, set_raw, if_neg hq]
      exact h

theorem handle_existing_of_dir (c : Cfg) (t : String) (fs : FS) (inputs : List String)
    (q : String) (h : fs q = some .dir) :
    (handle_existing_file_behavior c t fs inputs).2.1 q = some .dir := by
  rw [handle_existing_file_behavior]
  cases c.action with
  | fail => exact h
  | skip => exact h
  | execute => exact remove_existing_file_of_dir fs t q h
  | ask =>
    cases har : ask_loop c.mode inputs with
    | mk r rest =>
      cases r with
      | executed => exact remove_existing_file_of_dir fs t q h
      | skipped => exact h
      | failed => exact h
      | eof => exact h

theorem processFile_of_dir (c : Cfg) (fs : FS) (inputs : List String) (f q : String)
    (h : fs q = some .dir) : (processFile c fs inputs f).1 q = some .dir := by
  rw [processFile]
  simp only []
  have h1 : (create_directory fs (os_path_dirname (targetOf c f))).1 q = some .dir :=
    create_directory_fs_of_some fs _ q _ h
  by_cases hl : lexists (create_directory fs (os_path_dirname (targetOf c f))).1 (targetOf c f)
  · simp only [if_pos hl]
    have h2 := handle_existing_of_dir c (targetOf c f)
      (create_directory fs (os_path_dirname (targetOf c f))).1 inputs q h1
    cases hh : handle_existing_file_behavior c (targetOf c f)
        (create_directory fs (os_path_dirname (targetOf c f))).1 inputs with
    | mk r w =>
      rw [hh] at h2
      cases w with
      | mk fs2 w2 =>
        cases w2 with
        | mk e2 inp2 =>
          cases r with
          | failed => exact h2
          | eof => exact h2
          | skipped => exact h2
          | executed =>
            by_cases hm : c.mode = Mode.create
            · simp only [if_pos hm]
              exact create_symlink_of_dir fs2 f (targetOf c f) c q h2
            · simp only [if_neg hm]
              exact h2
  · simp only [if_neg hl]
    by_cases hm : c.mode = Mode.create
    · simp only [if_pos hm]
      exact create_symlink_of_dir _ f (targetOf c f) c q h1
    · simp only [if_neg hm]
      exact h1

theorem decorate_of_dir (c : Cfg) (files : List String) (fs : FS) (inputs : List String)
    (q : String) (h : fs q = some .dir) :
    (decorate_symlinks c files fs inputs).fs q = some .dir := by
  induction files generalizing fs inputs with
  | nil => exact h
  | cons f rest ih =>
    rw [decorate_symlinks]
    have hpf := processFile_of_dir c fs inputs f q h
    cases hp : processFile c fs inputs f with
    | mk fs1 w =>
      rw [hp] at hpf
      cases w with
      | mk evs w2 =>
        cases w2 with
        | mk inp1 ost =>
          cases ost with
          | some st => exact hpf
          | none => exact ih fs1 inp1 hpf

theorem create_symlink_none_of_some (fs : FS) (src dest : String) (c : Cfg) (q : String)
    (e : Entry) (hg : FS.get fs dest = none) (h : fs q = some e) :
    (create_symlink fs src dest c).1 q = some e := by
  rw [create_symlink]
  rw [hg]
  have hq : q ≠ normPath dest := by
    intro hqe
    rw [hqe, show fs (normPath dest) = FS.get fs dest from rfl, hg] at h
    exact Option.noConfusion h
  show FS.set fs dest _ q = some e
  rw [set_raw, if_neg hq]
  exact h

theorem processFile_skip_of_some (c : Cfg) (fs : FS) (inputs : List String) (f q : String)
    (e : Entry) (hact : c.action = .skip) (h : fs q = some e) :
    (processFile c fs inputs f).1 q = some e := by
  rw [processFile]
  simp only []
  have h1 : (create_directory fs (os_path_dirname (targetOf c f))).1 q = some e :=
    create_directory_fs_of_some fs _ q _ h
  by_cases hl : lexists (create_directory fs (os_path_dirname (targetOf c f))).1 (targetOf c f)
  · simp only [if_pos hl]
    rw [handle_existing_file_behavior, hact]
    exact h1
  · simp only [if_neg hl]
    by_cases hm : c.mode = Mode.create
    · simp only [if_pos hm]
      have hg : FS.get (create_directory fs (os_path_dirname (targetOf c f))).1 (targetOf c f)
          = none := by
        rw [lexists] at hl
        exact Option.not_isSome_iff_eq_none.mp (by simpa using hl)
      exact create_symlink_none_of_some _ f (targetOf c f) c q e hg h1
    · simp only [if_neg hm]
      exact h1

theorem foldlM_no_on_exists (argv : List String) (acc : String)
    (h : ∀ arg ∈ argv, ("--on-exists=".data.isPrefixOf arg.data) = false) :
    List.foldlM
      (fun acc arg =>
        if "--on-exists=".data.isPrefixOf arg.data then
          let v := argEqValue arg
          if v ∈ VALID_ACTION_VALUES then Except.ok v else Except.error 1
        else Except.ok acc)
      acc argv = Except.ok (ε := Nat) acc := by
  induction argv generalizing acc with
  | nil => rfl
  | cons a l ih =>
    rw [List.foldlM_cons]
    rw [h a (List.mem_cons_self a l)]
    simp only [if_false]
    show (Except.ok acc >>= fun b => List.foldlM _ b l) = Except.ok acc
    rw [show ((Except.ok acc >>= fun b => List.foldlM
      (fun acc arg =>
        if "--on-exists=".data.isPrefixOf arg.data then
          let v := argEqValue arg
          if v ∈ VALID_ACTION_VALUES then Except.ok v else Except.error 1
        else Except.ok acc) b l : Except Nat String)) = List.foldlM _ acc l from rfl]
    exact ih acc (fun arg ha => h arg (List.mem_cons_of_mem a ha))

/-! Claim theorems. -/

/-- C2 (counterexample): with an empty search string and replace string `"X"`,
the computed destination path is not `join(destRoot, relative(sourceFile,
sourceRoot))` and the replace string is inserted into it — Python
`str.replace` with an empty search string inserts the replacement around
every character. -/
theorem c2_cex :
    cfgEmptySearch.search_string = "" ∧
    targetOf cfgEmptySearch "/s/a" ≠
      os_path_join (effDestRoot cfgEmptySearch)
        (os_path_relpath cfgEmptySearch.cwd "/s/a" (effSourceRoot cfgEmptySearch)) ∧
    List.IsInfix "X".data (targetOf cfgEmptySearch "/s/a").data := by
  refine ⟨rfl, ?_, by decide⟩
  decide

/-- C2 (amended): when the search string and the replace string are both
empty, the path rewrite is a no-op and the computed destination path is
exactly `join(destRoot, relative(sourceFile, sourceRoot))`. -/
theorem c2_noop (c : Cfg) (f : String)
    (h1 : c.search_string = "") (h2 : c.replace_string = "") :
    targetOf c f =
      os_path_join (effDestRoot c) (os_path_relpath c.cwd f (effSourceRoot c)) := by
  rw [targetOf, relOf, replace_in_path, if_pos rfl, h1, h2, str_replace_empty_empty]

/-- C2 (witness): the amended statement evaluated on a concrete
configuration. -/
theorem c2_noop_witness :
    cfgCreate.search_string = "" ∧ cfgCreate.replace_string = "" ∧
    targetOf cfgCreate "/s/a/b.txt" =
      os_path_join (effDestRoot cfgCreate)
        (os_path_relpath cfgCreate.cwd "/s/a/b.txt" (effSourceRoot cfgCreate)) :=
  ⟨rfl, rfl, c2_noop cfgCreate "/s/a/b.txt" rfl rfl⟩

/-- C4 (code bug): in delete mode under the `execute` policy, a broken
symlink at the computed destination is detected (`lexists` holds, i.e.
`exists-or-islink`), yet the run completes with the entry still present,
because `remove_existing_file` guards `os.remove` with `os.path.exists`
alone, which is false for a broken symlink. -/
theorem c4_broken_link_kept :
    cfgDelete.mode = Mode.delete ∧ cfgDelete.action = OnExists.execute ∧
    lexists fsBroken "/d/a" = true ∧
    pexists fsBroken FUEL "/d/a" = false ∧
    targetOf cfgDelete "/s/a" = "/d/a" ∧
    (decorate_symlinks cfgDelete ["/s/a"] fsBroken []).status = RunStatus.completed ∧
    FS.get (decorate_symlinks cfgDelete ["/s/a"] fsBroken []).fs "/d/a"
      = some (.link "/gone") := by
  refine ⟨rfl, rfl, by decide, by decide, by decide, by decide, by decide⟩

/-- C6 (counterexample): a command line without `--on-exists=` yields the
action `"ask"`, not `"fail"`. -/
theorem c6_cex :
    main_on_exists_action ["decorate_with_symlinks.py", "/s", "/d"] = Except.ok "ask" ∧
    DEFAULT_ACTION_VALUES = "ask" ∧ ("ask" : String) ≠ "fail" := by
  refine ⟨rfl, rfl, by decide⟩

/-- C6 (amended): when no command-line argument starts with `--on-exists=`,
the conflict policy defaults to `"ask"` (`DEFAULT_ACTION_VALUES`). -/
theorem c6_default_ask (argv : List String)
    (h : ∀ arg ∈ argv, ("--on-exists=".data.isPrefixOf arg.data) = false) :
    main_on_exists_action argv = Except.ok "ask" := by
  rw [main_on_exists_action]
  exact foldlM_no_on_exists argv DEFAULT_ACTION_VALUES h

/-- C6 (witness): the amended statement evaluated on a concrete command
line. -/
theorem c6_default_ask_witness :
    (∀ arg ∈ (["decorate_with_symlinks.py", "/s", "/d", "--relative"] : List String),
      ("--on-exists=".data.isPrefixOf arg.data) = false) ∧
    main_on_exists_action ["decorate_with_symlinks.py", "/s", "/d", "--relative"]
      = Except.ok "ask" :=
  ⟨by decide, c6_default_ask _ (by decide)⟩

/-- C10: at the `ask` prompt, the set of accepted (non-re-prompting)
lowercased responses is exactly the mode's execute choices (`r`/`replace` in
create mode, `d`/`delete` in delete mode) plus `s`, `skip` and `f`; the full
word `fail` is not accepted and re-prompts, and a response triggers the fail
outcome exactly when it lowercases to `f` (the source's `'Failed'` literal is
unreachable after lowercasing). -/
theorem c10_ask_accepted : ∀ (mo : Mode) (s : String) (rest : List String),
    ((askStep mo s).isSome = true ↔
      lowerS s ∈ execute_choices mo ++ ["s", "skip", "f"]) ∧
    execute_choices Mode.create = ["r", "replace"] ∧
    execute_choices Mode.delete = ["d", "delete"] ∧
    askStep mo "fail" = none ∧
    ask_loop mo ("fail" :: rest) = ask_loop mo rest ∧
    (askStep mo s = some HandleRes.failed ↔ lowerS s = "f") := by
  intro mo s rest
  have hfail : askStep mo "fail" = none := by cases mo <;> decide
  have hnf := lowerS_ne_Failed s
  refine ⟨?_, rfl, rfl, hfail, ?_, ?_⟩
  · have hstep : (askStep mo s).isSome = true ↔
        (lowerS s ∈ execute_choices mo ∨ lowerS s ∈ (["s", "skip"] : List String) ∨
          lowerS s ∈ (["f", "Failed"] : List String)) := by
      rw [askStep]
      split_ifs with h1 h2 h3
      · simp [h1]
      · simp [h2]
      · simp [h3]
      · simp [h1, h2, h3]
    rw [hstep]
    cases mo <;>
      simp only [execute_choices, List.mem_append, List.mem_cons, List.mem_singleton,
        List.not_mem_nil] <;>
      tauto
  · rw [ask_loop, hfail]
  · rw [askStep]
    constructor
    · intro h
      by_cases h1 : lowerS s ∈ execute_choices mo
      · rw [if_pos h1] at h
        exact absurd (Option.some.inj h) (by simp)
      · rw [if_neg h1] at h
        by_cases h2 : lowerS s ∈ (["s", "skip"] : List String)
        · rw [if_pos h2] at h
          exact absurd (Option.some.inj h) (by simp)
        · rw [if_neg h2] at h
          by_cases h3 : lowerS s ∈ (["f", "Failed"] : List String)
          · simp only [List.mem_cons, List.mem_singleton] at h3
            rcases h3 with h3 | h3
            · exact h3
            · simp only [List.not_mem_nil, or_false] at h3
              exact absurd h3 hnf
          · rw [if_neg h3] at h
            exact Option.noConfusion h
    · intro h
      have h1 : lowerS s ∉ execute_choices mo := by
        cases mo <;> rw [execute_choices] <;> rw [h] <;> decide
      have h2 : lowerS s ∉ (["s", "skip"] : List String) := by rw [h]; decide
      have h3 : lowerS s ∈ (["f", "Failed"] : List String) := by rw [h]; decide
      rw [if_neg h1, if_neg h2, if_pos h3]


/-- C7: under the `skip` policy, every entry present in the initial
filesystem — in particular every pre-existing destination entry at a computed
destination path — is still present unchanged after the run, in create and
delete mode alike. -/
theorem c7_skip_frame (c : Cfg) (files : List String) (fs : FS) (inputs : List String)
    (q : String) (e : Entry) (hact : c.action = OnExists.skip) (h : fs q = some e) :
    (decorate_symlinks c files fs inputs).fs q = some e := by
  induction files generalizing fs inputs with
  | nil => exact h
  | cons f rest ih =>
    rw [decorate_symlinks]
    have hpf := processFile_skip_of_some c fs inputs f q e hact h
    cases hp : processFile c fs inputs f with
    | mk fs1 w =>
      rw [hp] at hpf
      cases w with
      | mk evs w2 =>
        cases w2 with
        | mk inp1 ost =>
          cases ost with
          | some st => exact hpf
          | none => exact ih fs1 inp1 hpf

/-- C7 (witness): a `skip`-policy run over a destination whose entry `/d/a`
is a pre-existing regular file leaves it in place. -/
theorem c7_skip_frame_witness :
    cfgSkip.action = OnExists.skip ∧ fsConflict "/d/a" = some Entry.file ∧
    (decorate_symlinks cfgSkip ["/s/a", "/s/b"] fsConflict []).fs "/d/a"
      = some Entry.file :=
  ⟨rfl, rfl, c7_skip_frame cfgSkip ["/s/a", "/s/b"] fsConflict [] "/d/a" Entry.file rfl rfl⟩

theorem askStep_lower_f (mo : Mode) (s : String) (h : lowerS s = "f") :
    askStep mo s = some HandleRes.failed := by
  rw [askStep]
  have h1 : lowerS s ∉ execute_choices mo := by
    cases mo <;> rw [execute_choices] <;> rw [h] <;> decide
  have h2 : lowerS s ∉ (["s", "skip"] : List String) := by rw [h]; decide
  have h3 : lowerS s ∈ (["f", "Failed"] : List String) := by rw [h]; decide
  rw [if_neg h1, if_neg h2, if_pos h3]

theorem handle_fails (c : Cfg) (t : String) (fs : FS) (inputs : List String)
    (hpol : c.action = OnExists.fail ∨
      (c.action = OnExists.ask ∧ ∃ i irest, inputs = i :: irest ∧ lowerS i = "f")) :
    ∃ inp2, handle_existing_file_behavior c t fs inputs
      = (HandleRes.failed, fs, [], inp2) := by
  rcases hpol with hf | ⟨ha, i, irest, hin, hlow⟩
  · refine ⟨inputs, ?_⟩
    rw [handle_existing_file_behavior, hf]
  · refine ⟨irest, ?_⟩
    rw [handle_existing_file_behavior, ha, hin, ask_loop, askStep_lower_f c.mode i hlow]

/-- C3 (counterexample): under the `fail` policy with a conflict at the first
file, the run stops (status `failed`, the second file's link is never
created) but the process exit status is 0, not non-zero. -/
theorem c3_cex :
    cfgFail.action = OnExists.fail ∧
    lexists fsConflict "/d/a" = true ∧
    (decorate_symlinks cfgFail ["/s/a", "/s/b"] fsConflict []).status = RunStatus.failed ∧
    FS.get (decorate_symlinks cfgFail ["/s/a", "/s/b"] fsConflict []).fs "/d/b" = none ∧
    decorateExit cfgFail ["/s/a", "/s/b"] fsConflict [] = 0 := by
  refine ⟨rfl, by decide, by decide, by decide, by decide⟩

/-- C3 (amended): when the policy is `fail` (or the user answers `f` under
`ask`) and the first file's destination entry already exists, the run
processes no further files — the result does not depend on the remaining
files — and terminates with status `failed`, but the process exit status is
0 (non-zero is reserved for validation errors and the `EOFError` crash). -/
theorem c3_halt (c : Cfg) (f : String) (rest : List String) (fs : FS) (inputs : List String)
    (hpol : c.action = OnExists.fail ∨
      (c.action = OnExists.ask ∧ ∃ i irest, inputs = i :: irest ∧ lowerS i = "f"))
    (hconf : lexists (create_directory fs (os_path_dirname (targetOf c f))).1
      (targetOf c f) = true)
    (hsrc : isdirF fs FUEL c.source_root = true)
    (hdst : isdirF fs FUEL c.dest_root = true) :
    decorate_symlinks c (f :: rest) fs inputs = decorate_symlinks c [f] fs inputs ∧
    (decorate_symlinks c (f :: rest) fs inputs).status = RunStatus.failed ∧
    decorateExit c (f :: rest) fs inputs = 0 := by
  obtain ⟨inp2, hh⟩ := handle_fails c (targetOf c f)
    (create_directory fs (os_path_dirname (targetOf c f))).1 inputs hpol
  have hpf : processFile c fs inputs f
      = ((create_directory fs (os_path_dirname (targetOf c f))).1,
        (create_directory fs (os_path_dirname (targetOf c f))).2 ++ [],
        inp2, some RunStatus.failed) := by
    rw [processFile]
    simp only [if_pos hconf]
    rw [hh]
  have hrun : decorate_symlinks c (f :: rest) fs inputs
      = ⟨(create_directory fs (os_path_dirname (targetOf c f))).1,
        (create_directory fs (os_path_dirname (targetOf c f))).2 ++ [],
        inp2, RunStatus.failed⟩ := by
    rw [decorate_symlinks, hpf]
  have hrun1 : decorate_symlinks c [f] fs inputs
      = ⟨(create_directory fs (os_path_dirname (targetOf c f))).1,
        (create_directory fs (os_path_dirname (targetOf c f))).2 ++ [],
        inp2, RunStatus.failed⟩ := by
    rw [decorate_symlinks, hpf]
  refine ⟨by rw [hrun, hrun1], by rw [hrun], ?_⟩
  rw [decorateExit]
  rw [if_neg (by rw [hsrc]; intro hc; exact Bool.noConfusion hc)]
  rw [if_neg (by rw [hdst]; intro hc; exact Bool.noConfusion hc)]
  rw [hrun]

/-- C3 (witness): the amended statement evaluated on a concrete `fail`-policy
run with a conflicting first file. -/
theorem c3_halt_witness :
    (cfgFail.action = OnExists.fail ∨
      (cfgFail.action = OnExists.ask ∧
        ∃ i irest, ([] : List String) = i :: irest ∧ lowerS i = "f")) ∧
    lexists (create_directory fsConflict
      (os_path_dirname (targetOf cfgFail "/s/a"))).1 (targetOf cfgFail "/s/a") = true ∧
    (decorate_symlinks cfgFail ["/s/a", "/s/b"] fsConflict []
        = decorate_symlinks cfgFail ["/s/a"] fsConflict [] ∧
      (decorate_symlinks cfgFail ["/s/a", "/s/b"] fsConflict []).status = RunStatus.failed ∧
      decorateExit cfgFail ["/s/a", "/s/b"] fsConflict [] = 0) :=
  ⟨Or.inl rfl, by decide,
    c3_halt cfgFail "/s/a" ["/s/b"] fsConflict [] (Or.inl rfl) (by decide)
      (by decide) (by decide)⟩


theorem ancChain_self (p : String) : p ∈ ancChain p := by
  rw [ancChain, ancChainF]
  by_cases h : os_path_dirname p = p ∨ os_path_dirname p = ""
  · simp only [if_pos h]
    exact List.mem_singleton.mpr rfl
  · simp only [if_neg h]
    exact List.mem_cons_self p _

theorem conflictFree_of_none_or_dir (fs : FS) (chain : List String)
    (h : ∀ a ∈ chain, FS.get fs a = none ∨ FS.get fs a = some Entry.dir) :
    conflictFree fs chain = true := by
  rw [conflictFree, List.all_eq_true]
  intro a ha
  rcases h a ha with h1 | h1 <;> rw [h1]

theorem create_directory_chain_dir (fs : FS) (d : String)
    (hchain : ∀ a ∈ ancChain d, FS.get fs a = none ∨ FS.get fs a = some Entry.dir) :
    FS.get (create_directory fs d).1 d = some Entry.dir := by
  have hd := hchain d (ancChain_self d)
  rw [create_directory]
  by_cases hp : pexists fs FUEL d
  · rw [if_pos hp]
    rcases hd with hnone | hdir
    · rw [pexists_of_get_none fs d hnone] at hp
      exact Bool.noConfusion hp
    · exact hdir
  · rw [if_neg hp]
    rcases hd with hnone | hdir
    · simp only [if_pos (conflictFree_of_none_or_dir fs (ancChain d) hchain)]
      show mkAllFs fs (ancChain d) (normPath d) = some Entry.dir
      rw [mkAllFs, if_pos ⟨⟨d, ancChain_self d, rfl⟩, hnone⟩]
    · rw [pexists_of_get_dir fs d hdir] at hp
      exact absurd rfl hp

theorem mkAllFs_none_or_dir (fs : FS) (chain : List String) (q : String)
    (h : fs q = none ∨ fs q = some Entry.dir) :
    mkAllFs fs chain q = none ∨ mkAllFs fs chain q = some Entry.dir := by
  rw [mkAllFs]
  by_cases hc : (∃ a ∈ chain, normPath a = q) ∧ fs q = none
  · rw [if_pos hc]
    exact Or.inr rfl
  · rw [if_neg hc]
    exact h

theorem create_directory_none_or_dir (fs : FS) (d q : String)
    (h : fs q = none ∨ fs q = some Entry.dir) :
    (create_directory fs d).1 q = none ∨ (create_directory fs d).1 q = some Entry.dir := by
  rw [create_directory]
  by_cases hp : pexists fs FUEL d
  · rw [if_pos hp]
    exact h
  · rw [if_neg hp]
    by_cases hc : conflictFree fs (ancChain d)
    · simp only [if_pos hc]
      exact mkAllFs_none_or_dir fs (ancChain d) q h
    · simp only [if_neg hc]
      exact h

theorem remove_existing_file_cases (fs : FS) (p q : String) :
    (remove_existing_file fs p).1 q = fs q ∨ (remove_existing_file fs p).1 q = none := by
  rw [remove_existing_file]
  by_cases hp : pexists fs FUEL p
  · rw [if_pos hp]
    cases hg : FS.get fs p with
    | none => exact Or.inl rfl
    | some e =>
      cases e with
      | dir => exact Or.inl rfl
      | file =>
        show FS.set fs p none q = fs q ∨ FS.set fs p none q = none
        rw [set_raw]
        by_cases hq : q = normPath p
        · rw [if_pos hq]
          exact Or.inr rfl
        · rw [if_neg hq]
          exact Or.inl rfl
      | link v =>
        show FS.set fs p none q = fs q ∨ FS.set fs p none q = none
        rw [set_raw]
        by_cases hq : q = normPath p
        · rw [if_pos hq]
          exact Or.inr rfl
        · rw [if_neg hq]
          exact Or.inl rfl
  · rw [if_neg hp]
    exact Or.inl rfl

theorem handle_none_or_dir (c : Cfg) (t : String) (fs : FS) (inputs : List String)
    (q : String) (h : fs q = none ∨ fs q = some Entry.dir) :
    (handle_existing_file_behavior c t fs inputs).2.1 q = none ∨
      (handle_existing_file_behavior c t fs inputs).2.1 q = some Entry.dir := by
  rw [handle_existing_file_behavior]
  cases c.action with
  | fail => exact h
  | skip => exact h
  | execute =>
    rcases remove_existing_file_cases fs t q with h1 | h1
    · rw [show (HandleRes.executed, (remove_existing_file fs t).1,
        (remove_existing_file fs t).2, inputs).2.1 q = (remove_existing_file fs t).1 q
        from rfl, h1]
      exact h
    · rw [show (HandleRes.executed, (remove_existing_file fs t).1,
        (remove_existing_file fs t).2, inputs).2.1 q = (remove_existing_file fs t).1 q
        from rfl, h1]
      exact Or.inl rfl
  | ask =>
    cases har : ask_loop c.mode inputs with
    | mk r rest =>
      cases r with
      | executed =>
        rcases remove_existing_file_cases fs t q with h1 | h1
        · show (remove_existing_file fs t).1 q = none ∨ _ = some Entry.dir
          rw [h1]
          exact h
        · show (remove_existing_file fs t).1 q = none ∨ _ = some Entry.dir
          rw [h1]
          exact Or.inl rfl
      | skipped => exact h
      | failed => exact h
      | eof => exact h

theorem processFile_delete_none_or_dir (c : Cfg) (fs : FS) (inputs : List String)
    (f q : String) (hmode : c.mode = Mode.delete)
    (h : fs q = none ∨ fs q = some Entry.dir) :
    (processFile c fs inputs f).1 q = none ∨
      (processFile c fs inputs f).1 q = some Entry.dir := by
  rw [processFile]
  simp only []
  have hm : ¬(c.mode = Mode.create) := by
    rw [hmode]
    intro hc
    exact Mode.noConfusion hc
  have h1 := create_directory_none_or_dir fs (os_path_dirname (targetOf c f)) q h
  by_cases hl : lexists (create_directory fs (os_path_dirname (targetOf c f))).1 (targetOf c f)
  · simp only [if_pos hl]
    have h2 := handle_none_or_dir c (targetOf c f)
      (create_directory fs (os_path_dirname (targetOf c f))).1 inputs q h1
    cases hh : handle_existing_file_behavior c (targetOf c f)
        (create_directory fs (os_path_dirname (targetOf c f))).1 inputs with
    | mk r w =>
      rw [hh] at h2
      cases w with
      | mk fs2 w2 =>
        cases w2 with
        | mk e2 inp2 =>
          cases r with
          | failed => exact h2
          | eof => exact h2
          | skipped => exact h2
          | executed =>
            simp only [if_neg hm]
            exact h2
  · simp only [if_neg hl, if_neg hm]
    exact h1

theorem processFile_delete_dirname (c : Cfg) (fs : FS) (inputs : List String) (f : String)
    (hmode : c.mode = Mode.delete)
    (hchain : ∀ a ∈ ancChain (os_path_dirname (targetOf c f)),
      FS.get fs a = none ∨ FS.get fs a = some Entry.dir) :
    (processFile c fs inputs f).1 (normPath (os_path_dirname (targetOf c f)))
      = some Entry.dir := by
  rw [processFile]
  simp only []
  have hm : ¬(c.mode = Mode.create) := by
    rw [hmode]
    intro hc
    exact Mode.noConfusion hc
  have h1 : (create_directory fs (os_path_dirname (targetOf c f))).1
      (normPath (os_path_dirname (targetOf c f))) = some Entry.dir :=
    create_directory_chain_dir fs (os_path_dirname (targetOf c f)) hchain
  by_cases hl : lexists (create_directory fs (os_path_dirname (targetOf c f))).1 (targetOf c f)
  · simp only [if_pos hl]
    have h2 := handle_existing_of_dir c (targetOf c f)
      (create_directory fs (os_path_dirname (targetOf c f))).1 inputs
      (normPath (os_path_dirname (targetOf c f))) h1
    cases hh : handle_existing_file_behavior c (targetOf c f)
        (create_directory fs (os_path_dirname (targetOf c f))).1 inputs with
    | mk r w =>
      rw [hh] at h2
      cases w with
      | mk fs2 w2 =>
        cases w2 with
        | mk e2 inp2 =>
          cases r with
          | failed => exact h2
          | eof => exact h2
          | skipped => exact h2
          | executed =>
            simp only [if_neg hm]
            exact h2
  · simp only [if_neg hl, if_neg hm]
    exact h1

theorem processFile_execute_status (c : Cfg) (fs : FS) (inputs : List String) (f : String)
    (hact : c.action = OnExists.execute) :
    (processFile c fs inputs f).2.2.2 = none := by
  rw [processFile]
  simp only []
  by_cases hl : lexists (create_directory fs (os_path_dirname (targetOf c f))).1 (targetOf c f)
  · simp only [if_pos hl]
    rw [handle_existing_file_behavior, hact]
    by_cases hm : c.mode = Mode.create
    · simp only [if_pos hm]
    · simp only [if_neg hm]
  · simp only [if_neg hl]
    by_cases hm : c.mode = Mode.create
    · simp only [if_pos hm]
    · simp only [if_neg hm]

/-- C9: in delete mode under the `execute` policy, for every discovered file
the run still ensures the parent directory of the computed destination path
exists — creating missing intermediate directories (all of the directory
chain's entries being absent or directories beforehand) even though delete
mode never creates links, so a delete run can add new directories to the
destination tree. -/
theorem c9_delete_mkdirs (c : Cfg) (pre post : List String) (f : String) (fs : FS)
    (inputs : List String)
    (hmode : c.mode = Mode.delete) (hact : c.action = OnExists.execute)
    (hchain : ∀ a ∈ ancChain (os_path_dirname (targetOf c f)),
      FS.get fs a = none ∨ FS.get fs a = some Entry.dir) :
    FS.get (decorate_symlinks c (pre ++ f :: post) fs inputs).fs
      (os_path_dirname (targetOf c f)) = some Entry.dir := by
  induction pre generalizing fs inputs with
  | nil =>
    rw [List.nil_append, decorate_symlinks]
    have hst := processFile_execute_status c fs inputs f hact
    have hdir := processFile_delete_dirname c fs inputs f hmode hchain
    cases hp : processFile c fs inputs f with
    | mk fs1 w =>
      rw [hp] at hst hdir
      cases w with
      | mk evs w2 =>
        cases w2 with
        | mk inp1 ost =>
          cases ost with
          | some st => exact Option.noConfusion hst
          | none =>
            show FS.get (decorate_symlinks c post fs1 inp1).fs
              (os_path_dirname (targetOf c f)) = some Entry.dir
            exact decorate_of_dir c post fs1 inp1
              (normPath (os_path_dirname (targetOf c f))) hdir
  | cons p pre' ih =>
    rw [List.cons_append, decorate_symlinks]
    have hst := processFile_execute_status c fs inputs p hact
    have hpres : ∀ a ∈ ancChain (os_path_dirname (targetOf c f)),
        (processFile c fs inputs p).1 (normPath a) = none ∨
          (processFile c fs inputs p).1 (normPath a) = some Entry.dir := by
      intro a ha
      exact processFile_delete_none_or_dir c fs inputs p (normPath a) hmode (hchain a ha)
    cases hp : processFile c fs inputs p with
    | mk fs1 w =>
      rw [hp] at hst hpres
      cases w with
      | mk evs w2 =>
        cases w2 with
        | mk inp1 ost =>
          cases ost with
          | some st => exact Option.noConfusion hst
          | none =>
            show FS.get (decorate_symlinks c (pre' ++ f :: post) fs1 inp1).fs
              (os_path_dirname (targetOf c f)) = some Entry.dir
            exact ih fs1 inp1 hpres

/-- C9 (witness): a delete run over a destination missing `/d/a` creates that
directory. -/
theorem c9_delete_mkdirs_witness :
    cfgDeletePlain.mode = Mode.delete ∧ cfgDeletePlain.action = OnExists.execute ∧
    fsPlain "/d/a" = none ∧
    os_path_dirname (targetOf cfgDeletePlain "/s/a/b.txt") = "/d/a" ∧
    FS.get (decorate_symlinks cfgDeletePlain ([] ++ "/s/a/b.txt" :: []) fsPlain []).fs
      (os_path_dirname (targetOf cfgDeletePlain "/s/a/b.txt")) = some Entry.dir :=
  ⟨rfl, rfl, rfl, by decide,
    c9_delete_mkdirs cfgDeletePlain [] [] "/s/a/b.txt" fsPlain [] rfl rfl (by decide)⟩


/-! Structure lemmas for normalized paths built from plain components. -/

theorem plainList_raw (L : List (List Char)) (h : plainList L) : rawList L :=
  fun comp hm => ⟨(h comp hm).1, (h comp hm).2.1⟩

theorem interSlash_append (l₁ l₂ : List (List Char)) (h₁ : l₁ ≠ []) (h₂ : l₂ ≠ []) :
    interSlash (l₁ ++ l₂) = interSlash l₁ ++ '/' :: interSlash l₂ := by
  induction l₁ with
  | nil => exact absurd rfl h₁
  | cons c l₁' ih =>
    cases l₁' with
    | nil =>
      cases l₂ with
      | nil => exact absurd rfl h₂
      | cons d l₂' => rfl
    | cons c' l₁'' =>
      have := ih (List.cons_ne_nil c' l₁'')
      rw [List.cons_append]
      rw [show interSlash (c :: (c' :: l₁'' ++ l₂)) = c ++ '/' :: interSlash (c' :: l₁'' ++ l₂)
        from rfl]
      rw [this]
      rw [show interSlash (c :: c' :: l₁'') = c ++ '/' :: interSlash (c' :: l₁'') from rfl]
      simp [List.append_assoc]

theorem interSlash_getLast_ne_slash (L : List (List Char)) (hL : rawList L) (hne : L ≠ []) :
    ('/' :: interSlash L).getLast? ≠ some '/' := by
  induction L with
  | nil => exact absurd rfl hne
  | cons c L' ih =>
    cases L' with
    | nil =>
      show ('/' :: c).getLast? ≠ some '/'
      obtain ⟨hc, hsl⟩ := hL c (List.mem_cons_self c [])
      cases hcc : c.getLast? with
      | none =>
        rw [List.getLast?_eq_none_iff] at hcc
        exact absurd hcc hc
      | some x =>
        have hx : x ∈ c := by
          have := List.getLast?_eq_getLast c hc
          rw [this] at hcc
          rw [← Option.some.inj hcc]
          exact List.getLast_mem hc
        rw [show ('/' :: c) = ['/'] ++ c from rfl, List.getLast?_append, hcc]
        intro hcon
        rw [Option.or_of_isSome (Option.isSome_some)] at hcon
        exact hsl (by rw [Option.some.inj hcon] at hx; exact hx)
    | cons c' L'' =>
      have hL' : rawList (c' :: L'') := fun comp hm => hL comp (List.mem_cons_of_mem c hm)
      have ihh := ih hL' (List.cons_ne_nil c' L'')
      rw [show interSlash (c :: c' :: L'') = c ++ '/' :: interSlash (c' :: L'') from rfl]
      rw [show ('/' :: (c ++ '/' :: interSlash (c' :: L''))) =
        ('/' :: c) ++ ('/' :: interSlash (c' :: L'')) from rfl]
      rw [List.getLast?_append]
      intro hcon
      have hns : ('/' :: interSlash (c' :: L'')).getLast?.isSome := by
        cases hg : ('/' :: interSlash (c' :: L'')).getLast? with
        | none =>
          rw [List.getLast?_eq_none_iff] at hg
          exact List.noConfusion hg
        | some y => rfl
      rw [Option.or_of_isSome hns] at hcon
      exact ihh hcon

theorem splitSep_ne_nil (sep : Char) (l : List Char) : splitSep sep l ≠ [] := by
  cases l with
  | nil => exact List.cons_ne_nil _ _
  | cons c cs =>
    rw [splitSep]
    cases h : splitSep sep cs with
    | nil => exact List.cons_ne_nil _ _
    | cons t ts =>
      by_cases hc : c = sep <;> simp [hc]

theorem splitSep_no_sep (sep : Char) (c : List Char) (h : sep ∉ c) :
    splitSep sep c = [c] := by
  induction c with
  | nil => rfl
  | cons x xs ih =>
    have hx : ¬(x = sep) := fun he => h (he ▸ List.mem_cons_self x xs)
    rw [splitSep, ih (fun hm => h (List.mem_cons_of_mem x hm))]
    simp [hx]

theorem splitSep_append_no_sep (sep : Char) (c l : List Char) (t : List Char)
    (ts : List (List Char)) (h : sep ∉ c) (hl : splitSep sep l = t :: ts) :
    splitSep sep (c ++ l) = (c ++ t) :: ts := by
  induction c with
  | nil => simpa using hl
  | cons x xs ih =>
    have hx : ¬(x = sep) := fun he => h (he ▸ List.mem_cons_self x xs)
    have ihh := ih (fun hm => h (List.mem_cons_of_mem x hm))
    rw [List.cons_append, splitSep, ihh]
    simp [hx]

theorem splitSlash_interSlash (L : List (List Char)) (hL : rawList L) (hne : L ≠ []) :
    splitSlash (interSlash L) = L := by
  induction L with
  | nil => exact absurd rfl hne
  | cons c L' ih =>
    obtain ⟨hc, hsl⟩ := hL c (List.mem_cons_self c L')
    cases L' with
    | nil => exact splitSep_no_sep '/' c hsl
    | cons c' L'' =>
      have hL' : rawList (c' :: L'') := fun comp hm => hL comp (List.mem_cons_of_mem c hm)
      have ihh := ih hL' (List.cons_ne_nil c' L'')
      rw [show interSlash (c :: c' :: L'') = c ++ '/' :: interSlash (c' :: L'') from rfl]
      have hstep : splitSlash ('/' :: interSlash (c' :: L'')) = [] :: c' :: L'' := by
        show splitSep '/' ('/' :: interSlash (c' :: L'')) = [] :: c' :: L''
        rw [splitSep]
        rw [show splitSep '/' (interSlash (c' :: L'')) = splitSlash (interSlash (c' :: L''))
          from rfl]
        rw [ihh]
        simp
      have := splitSep_append_no_sep '/' c ('/' :: interSlash (c' :: L'')) [] (c' :: L'')
        hsl hstep
      rw [show splitSlash (c ++ '/' :: interSlash (c' :: L'')) =
        splitSep '/' (c ++ '/' :: interSlash (c' :: L'')) from rfl]
      rw [this]
      rw [List.append_nil]

theorem foldl_normStep_plain (absFlag : Bool) (L : List (List Char))
    (acc : List (List Char)) (hL : plainList L) :
    L.foldl (normStep absFlag) acc = L.reverse ++ acc := by
  induction L generalizing acc with
  | nil => rfl
  | cons c L' ih =>
    obtain ⟨hc, _, hdot, hdd⟩ := hL c (List.mem_cons_self c L')
    have hL' : plainList L' := fun comp hm => hL comp (List.mem_cons_of_mem c hm)
    rw [List.foldl_cons]
    rw [show normStep absFlag acc c = c :: acc from by
      rw [normStep.eq_def, if_neg (by rintro (h | h) <;> [exact hc h; exact hdot h]),
        if_neg hdd]]
    rw [ih (c :: acc) hL']
    simp [List.append_assoc]

theorem normPath_plain_abs (L : List (List Char)) (hL : plainList L) :
    normPath ⟨'/' :: interSlash L⟩ = ⟨'/' :: interSlash L⟩ := by
  cases hne : L with
  | nil => decide
  | cons c L' =>
    rw [← hne]
    have hLne : L ≠ [] := by rw [hne]; exact List.cons_ne_nil c L'
    rw [normPath]
    have habs : isAbsL ('/' :: interSlash L) = true := rfl
    simp only [habs, if_pos]
    have hsplit : splitSlash ('/' :: interSlash L) = [] :: L := by
      show splitSep '/' ('/' :: interSlash L) = [] :: L
      cases hx : splitSep '/' (interSlash L) with
      | nil => exact absurd hx (splitSep_ne_nil '/' _)
      | cons t ts =>
        rw [splitSep, hx]
        rw [show splitSep '/' (interSlash L) = splitSlash (interSlash L) from rfl] at hx
        rw [splitSlash_interSlash L (plainList_raw L hL) hLne] at hx
        rw [show (match t :: ts with
          | [] => [['/']]
          | t :: ts => if '/' = '/' then [] :: t :: ts else ('/' :: t) :: ts)
          = [] :: t :: ts from by simp]
        rw [hx]
    rw [show splitSlash (String.data ⟨'/' :: interSlash L⟩) = splitSlash ('/' :: interSlash L)
      from rfl]
    rw [hsplit]
    rw [normComps]
    rw [List.foldl_cons]
    rw [show normStep true [] [] = [] from rfl]
    rw [foldl_normStep_plain true L [] hL]
    rw [List.append_nil, List.reverse_reverse]


theorem dropWhile_ne_slash_nil (c : List Char) (h : '/' ∉ c) :
    (c.dropWhile fun ch => ch ≠ '/') = [] := by
  rw [List.dropWhile_eq_nil_iff]
  intro x hx
  simp only [ne_eq, decide_not, Bool.not_eq_true', decide_eq_false_iff_not, Decidable.not_not]
  intro hxe
  exact h (by rw [← hxe]; exact hx)

theorem dirnameL_cons_slash (X c : List Char) (hsl : '/' ∉ c) (hX : X ≠ [])
    (hlast : X.getLast? ≠ some '/') : dirnameL (X ++ '/' :: c) = X := by
  rw [dirnameL]
  have hrev : (X ++ '/' :: c).reverse = c.reverse ++ '/' :: X.reverse := by
    rw [List.reverse_append, show ('/' :: c).reverse = c.reverse ++ ['/'] from
      List.reverse_cons '/' c, List.append_assoc]
    rfl
  have hdropc : (c.reverse.dropWhile fun ch => ch ≠ '/') = [] :=
    dropWhile_ne_slash_nil c.reverse (fun hm => hsl ((List.mem_reverse).mp hm))
  have hdrop : ((X ++ '/' :: c).reverse.dropWhile fun ch => ch ≠ '/') = '/' :: X.reverse := by
    rw [hrev, List.dropWhile_append, hdropc]
    simp only [List.isEmpty_nil, if_true]
    rw [List.dropWhile_cons]
    simp
  rw [hdrop]
  have hhead : ('/' :: X.reverse).reverse = X ++ ['/'] := by
    rw [List.reverse_cons, List.reverse_reverse]
  rw [hhead]
  have hxlast : ∃ ch, X.getLast? = some ch ∧ ch ≠ '/' := by
    cases hg : X.getLast? with
    | none =>
      rw [List.getLast?_eq_none_iff] at hg
      exact absurd hg hX
    | some ch =>
      refine ⟨ch, rfl, ?_⟩
      intro he
      rw [he] at hg
      exact hlast hg
  obtain ⟨ch, hch, hchne⟩ := hxlast
  have hchm : ch ∈ X := by
    have h1 : X.getLast? = some (X.getLast hX) := List.getLast?_eq_getLast X hX
    rw [h1] at hch
    rw [← Option.some.inj hch]
    exact List.getLast_mem hX
  have hall : ((X ++ ['/']).all fun c => c = '/') = false := by
    rw [List.all_eq_false]
    refine ⟨ch, List.mem_append.mpr (Or.inl hchm), ?_⟩
    simp [hchne]
  rw [hall]
  simp only [Bool.false_eq_true, if_false]
  rw [dropTrailSlash]
  have hrev2 : (X ++ ['/']).reverse = '/' :: X.reverse := by
    rw [List.reverse_append]
    rfl
  rw [hrev2, List.dropWhile_cons]
  simp only [decide_True, if_true]
  have hXr : X.reverse.dropWhile (fun c => c = '/') = X.reverse := by
    cases hxr : X.reverse with
    | nil => rfl
    | cons y ys =>
      have hy : X.getLast? = some y := by
        rw [← List.head?_reverse, hxr]
        rfl
      rw [hch] at hy
      rw [List.dropWhile_cons]
      rw [if_neg]
      intro hyc
      rw [decide_eq_true_iff] at hyc
      exact hchne (by rw [Option.some.inj hy]; exact hyc)
  rw [hXr, List.reverse_reverse]

theorem dirname_abs_comps (dsp : List (List Char)) (c : List Char)
    (hplain : plainList (dsp ++ [c])) :
    os_path_dirname ⟨'/' :: interSlash (dsp ++ [c])⟩ = ⟨'/' :: interSlash dsp⟩ := by
  obtain ⟨hc, hsl, _, _⟩ := hplain c (List.mem_append.mpr (Or.inr (List.mem_singleton.mpr rfl)))
  cases hdsp : dsp with
  | nil =>
    rw [os_path_dirname]
    show String.mk (dirnameL ('/' :: interSlash [c])) = _
    rw [show interSlash [c] = c from rfl]
    rw [show ('/' :: c) = [] ++ '/' :: c from rfl]
    rw [dirnameL]
    have hrev : (([] : List Char) ++ '/' :: c).reverse = c.reverse ++ ['/'] := by
      simp
    have hdropc : (c.reverse.dropWhile fun ch => ch ≠ '/') = [] :=
      dropWhile_ne_slash_nil c.reverse (fun hm => hsl ((List.mem_reverse).mp hm))
    have hdrop : ((([] : List Char) ++ '/' :: c).reverse.dropWhile fun ch => ch ≠ '/')
        = ['/'] := by
      rw [hrev, List.dropWhile_append, hdropc]
      simp
    rw [hdrop]
    rfl
  | cons d0 dsr =>
    rw [← hdsp]
    have hdspne : dsp ≠ [] := by rw [hdsp]; exact List.cons_ne_nil _ _
    have hplaindsp : plainList dsp := fun comp hm =>
      hplain comp (List.mem_append.mpr (Or.inl hm))
    rw [interSlash_append dsp [c] hdspne (List.cons_ne_nil _ _)]
    rw [show interSlash [c] = c from rfl]
    rw [os_path_dirname]
    show String.mk (dirnameL ('/' :: (interSlash dsp ++ '/' :: c))) = _
    rw [show ('/' :: (interSlash dsp ++ '/' :: c)) = ('/' :: interSlash dsp) ++ '/' :: c
      from by simp]
    rw [dirnameL_cons_slash ('/' :: interSlash dsp) c hsl (List.cons_ne_nil _ _)
      (interSlash_getLast_ne_slash dsp (plainList_raw dsp hplaindsp) hdspne)]

theorem join_abs_comps (dsp cs : List (List Char)) (hds : rawList dsp)
    (hcs : rawList cs) (hcsne : cs ≠ []) :
    os_path_join ⟨'/' :: interSlash dsp⟩ ⟨interSlash cs⟩
      = ⟨'/' :: interSlash (dsp ++ cs)⟩ := by
  obtain ⟨c0, cs', hcs0⟩ : ∃ c0 cs', cs = c0 :: cs' := by
    cases cs with
    | nil => exact absurd rfl hcsne
    | cons c0 cs' => exact ⟨c0, cs', rfl⟩
  obtain ⟨hc0ne, hc0sl⟩ := hcs c0 (by rw [hcs0]; exact List.mem_cons_self _ _)
  have habs : isAbsL (String.data ⟨interSlash cs⟩) = false := by
    show isAbsL (interSlash cs) = false
    rw [isAbsL]
    rw [hcs0]
    cases cs' with
    | nil =>
      show decide ((interSlash [c0]).head? = some '/') = false
      rw [decide_eq_false_iff_not]
      intro hh
      rw [show interSlash [c0] = c0 from rfl] at hh
      exact hc0sl (List.mem_of_mem_head? hh)
    | cons c1 cs'' =>
      show decide ((interSlash (c0 :: c1 :: cs'')).head? = some '/') = false
      rw [decide_eq_false_iff_not]
      intro hh
      rw [show interSlash (c0 :: c1 :: cs'') = c0 ++ '/' :: interSlash (c1 :: cs'')
        from rfl] at hh
      rw [List.head?_append] at hh
      cases hc0h : c0.head? with
      | none =>
        rw [List.head?_eq_none_iff] at hc0h
        exact hc0ne hc0h
      | some y =>
        rw [hc0h] at hh
        rw [Option.or_of_isSome (Option.isSome_some)] at hh
        have hym : y ∈ c0 := List.mem_of_mem_head? hc0h
        rw [Option.some.inj hh] at hym
        exact hc0sl hym
  rw [os_path_join, if_neg (by rw [habs]; exact fun hcon => Bool.noConfusion hcon)]
  cases hdsp : dsp with
  | nil =>
    have hcond : (String.mk ('/' :: interSlash ([] : List (List Char)))).data = [] ∨
        (String.mk ('/' :: interSlash ([] : List (List Char)))).data.getLast? = some '/' :=
      Or.inr rfl
    rw [if_pos hcond]
    show String.mk (['/'] ++ interSlash cs) = _
    rw [show (['/'] : List Char) ++ interSlash cs = '/' :: interSlash cs from rfl]
    rw [show ([] : List (List Char)) ++ cs = cs from List.nil_append cs]
  | cons d0 dsr =>
    rw [← hdsp]
    have hdspne : dsp ≠ [] := by rw [hdsp]; exact List.cons_ne_nil _ _
    rw [if_neg]
    · show String.mk (('/' :: interSlash dsp) ++ '/' :: interSlash cs) = _
      rw [interSlash_append dsp cs hdspne hcsne]
      simp
    · rintro (h1 | h1)
      · exact List.noConfusion h1
      · exact interSlash_getLast_ne_slash dsp hds hdspne h1


theorem dirnameL_length_le (l : List Char) : (dirnameL l).length ≤ l.length := by
  rw [dirnameL]
  have hhead : ((l.reverse.dropWhile fun c => c ≠ '/').reverse).length ≤ l.length := by
    rw [List.length_reverse]
    calc (l.reverse.dropWhile fun c => c ≠ '/').length
        ≤ l.reverse.length := List.IsSuffix.length_le (List.dropWhile_suffix _)
      _ = l.length := List.length_reverse l
  by_cases hall : ((l.reverse.dropWhile fun c => c ≠ '/').reverse.all fun c => c = '/') = true
  · rw [if_pos hall]
    exact hhead
  · rw [if_neg hall]
    rw [dropTrailSlash, List.reverse_reverse]
    calc ((l.reverse.dropWhile fun c => c ≠ '/').dropWhile fun c => c = '/').reverse.length
        = ((l.reverse.dropWhile fun c => c ≠ '/').dropWhile fun c => c = '/').length :=
          List.length_reverse _
      _ ≤ (l.reverse.dropWhile fun c => c ≠ '/').length := List.IsSuffix.length_le (List.dropWhile_suffix _)
      _ ≤ l.reverse.length := List.IsSuffix.length_le (List.dropWhile_suffix _)
      _ = l.length := List.length_reverse l

theorem dirnameL_eq_of_length (l : List Char) (h : (dirnameL l).length = l.length) :
    dirnameL l = l := by
  rw [dirnameL] at h ⊢
  have hAsuf : (l.reverse.dropWhile fun c => c ≠ '/') <:+ l.reverse :=
    List.dropWhile_suffix _
  have hAle : (l.reverse.dropWhile fun c => c ≠ '/').length ≤ l.length := by
    calc (l.reverse.dropWhile fun c => c ≠ '/').length
        ≤ l.reverse.length := List.IsSuffix.length_le hAsuf
      _ = l.length := List.length_reverse l
  by_cases hall : ((l.reverse.dropWhile fun c => c ≠ '/').reverse.all fun c => c = '/') = true
  · rw [if_pos hall] at h ⊢
    rw [List.length_reverse] at h
    have hAeq : (l.reverse.dropWhile fun c => c ≠ '/') = l.reverse :=
      List.IsSuffix.eq_of_length hAsuf (by rw [h, List.length_reverse])
    rw [hAeq, List.reverse_reverse]
  · rw [if_neg hall] at h ⊢
    rw [dropTrailSlash, List.reverse_reverse] at h ⊢
    have hBsuf : ((l.reverse.dropWhile fun c => c ≠ '/').dropWhile fun c => c = '/') <:+
        (l.reverse.dropWhile fun c => c ≠ '/') := List.dropWhile_suffix _
    rw [List.length_reverse] at h
    have hBlen : ((l.reverse.dropWhile fun c => c ≠ '/').dropWhile fun c => c = '/').length
        = (l.reverse.dropWhile fun c => c ≠ '/').length := by
      have h1 := List.IsSuffix.length_le hBsuf
      omega
    have hBeq := List.IsSuffix.eq_of_length hBsuf hBlen
    have hAeq : (l.reverse.dropWhile fun c => c ≠ '/') = l.reverse :=
      List.IsSuffix.eq_of_length hAsuf (by
        rw [List.length_reverse]
        have h1 := List.IsSuffix.length_le hBsuf
        omega)
    rw [hBeq, hAeq, List.reverse_reverse]

theorem dirname_length_lt (p : String) (h : ¬(os_path_dirname p = p)) :
    (os_path_dirname p).data.length < p.data.length := by
  have hle := dirnameL_length_le p.data
  rcases Nat.lt_or_ge (dirnameL p.data).length p.data.length with hlt | hge
  · exact hlt
  · exfalso
    have heq : (dirnameL p.data).length = p.data.length := Nat.le_antisymm hle hge
    have h2 := dirnameL_eq_of_length p.data heq
    exact h (show os_path_dirname p = p from by
      rw [os_path_dirname, h2])

theorem ancChainF_stable (n : Nat) : ∀ (m : Nat) (p : String), p.data.length < n →
    p.data.length < m → ancChainF n p = ancChainF m p := by
  induction n with
  | zero =>
    intro m p h
    omega
  | succ np ih =>
    intro m p hn hm
    cases m with
    | zero => omega
    | succ mp =>
      rw [ancChainF, ancChainF]
      by_cases hg : os_path_dirname p = p ∨ os_path_dirname p = ""
      · simp only [if_pos hg]
      · simp only [if_neg hg]
        have hlt : (os_path_dirname p).data.length < p.data.length :=
          dirname_length_lt p (fun he => hg (Or.inl he))
        rw [ih mp (os_path_dirname p) (by omega) (by omega)]

theorem ancChain_unfold (p : String) : ancChain p =
    p :: (if os_path_dirname p = p ∨ os_path_dirname p = "" then []
      else ancChain (os_path_dirname p)) := by
  rw [ancChain, ancChainF]
  by_cases hg : os_path_dirname p = p ∨ os_path_dirname p = ""
  · simp only [if_pos hg]
  · simp only [if_neg hg]
    have hlt : (os_path_dirname p).data.length < p.data.length :=
      dirname_length_lt p (fun he => hg (Or.inl he))
    rw [ancChain]
    rw [ancChainF_stable p.data.length ((os_path_dirname p).data.length + 1)
      (os_path_dirname p) (by omega) (by omega)]

theorem interSlash_append_length (dsp : List (List Char)) (c : List Char) (hc : c ≠ []) :
    (interSlash dsp).length < (interSlash (dsp ++ [c])).length := by
  have hcl : 0 < c.length := List.length_pos.mpr hc
  cases hdsp : dsp with
  | nil =>
    show (interSlash []).length < (interSlash [c]).length
    rw [show interSlash ([] : List (List Char)) = [] from rfl,
      show interSlash [c] = c from rfl]
    simpa using hcl
  | cons d0 dsr =>
    rw [← hdsp]
    have hdspne : dsp ≠ [] := by rw [hdsp]; exact List.cons_ne_nil _ _
    rw [interSlash_append dsp [c] hdspne (List.cons_ne_nil _ _)]
    rw [List.length_append]
    rw [show interSlash [c] = c from rfl]
    simp only [List.length_cons]
    omega

theorem ancChain_abs_comps (ds : List (List Char)) (hplain : plainList ds) :
    ∀ a ∈ ancChain ⟨'/' :: interSlash ds⟩,
      ∃ k, k ≤ ds.length ∧ a = ⟨'/' :: interSlash (ds.take k)⟩ := by
  induction ds using List.reverseRecOn with
  | nil =>
    intro a ha
    rw [show (⟨'/' :: interSlash []⟩ : String) = "/" from rfl] at ha
    rw [ancChain_unfold "/"] at ha
    rw [if_pos (Or.inl (by decide))] at ha
    rw [List.mem_singleton] at ha
    exact ⟨0, Nat.zero_le _, by rw [ha]; rfl⟩
  | append_singleton dsp c ih =>
    intro a ha
    have hplainp : plainList dsp := fun comp hm =>
      hplain comp (List.mem_append.mpr (Or.inl hm))
    have hcne : c ≠ [] :=
      (hplain c (List.mem_append.mpr (Or.inr (List.mem_singleton.mpr rfl)))).1
    have hdir := dirname_abs_comps dsp c hplain
    rw [ancChain_unfold] at ha
    have hlen := interSlash_append_length dsp c hcne
    have hgf : ¬(os_path_dirname ⟨'/' :: interSlash (dsp ++ [c])⟩
        = (⟨'/' :: interSlash (dsp ++ [c])⟩ : String) ∨
        os_path_dirname ⟨'/' :: interSlash (dsp ++ [c])⟩ = "") := by
      rw [hdir]
      rintro (h1 | h1)
      · have := congrArg (fun s => s.data.length) h1
        simp only [List.length_cons] at this
        omega
      · exact List.noConfusion (congrArg String.data h1)
    rw [if_neg hgf, hdir] at ha
    rcases List.mem_cons.mp ha with ha | ha
    · refine ⟨(dsp ++ [c]).length, Nat.le_refl _, ?_⟩
      rw [ha, List.take_length]
    · obtain ⟨k, hk, hae⟩ := ih hplainp a ha
      refine ⟨k, ?_, ?_⟩
      · rw [List.length_append]
        omega
      · rw [hae, List.take_append_of_le_length hk]


/-! Provenance of the run's mutation events. -/

theorem create_directory_events (fs : FS) (d : String) (ev : Event)
    (h : ev ∈ (create_directory fs d).2) :
    ∃ a, ev = Event.mkdir a ∧ a ∈ ancChain d ∧ FS.get fs a = none := by
  rw [create_directory] at h
  by_cases hp : pexists fs FUEL d
  · rw [if_pos hp] at h
    exact absurd h (List.not_mem_nil ev)
  · rw [if_neg hp] at h
    by_cases hc : conflictFree fs (ancChain d)
    · simp only [if_pos hc] at h
      rw [mkdirEvents] at h
      obtain ⟨a, ham, hae⟩ := List.mem_map.mp h
      refine ⟨a, hae.symm, List.mem_of_mem_filter ham, ?_⟩
      have := List.of_mem_filter ham
      rw [Option.isNone_iff_eq_none] at this
      exact this
    · simp only [if_neg hc] at h
      exact absurd h (List.not_mem_nil ev)

theorem remove_existing_file_events (fs : FS) (p : String) (ev : Event)
    (h : ev ∈ (remove_existing_file fs p).2) : ev = Event.removed p := by
  rw [remove_existing_file] at h
  by_cases hp : pexists fs FUEL p
  · rw [if_pos hp] at h
    cases hg : FS.get fs p with
    | none =>
      rw [hg] at h
      exact absurd h (List.not_mem_nil ev)
    | some e =>
      rw [hg] at h
      cases e with
      | dir => exact absurd h (List.not_mem_nil ev)
      | file => exact List.mem_singleton.mp h
      | link v => exact List.mem_singleton.mp h
  · rw [if_neg hp] at h
    exact absurd h (List.not_mem_nil ev)

theorem handle_existing_events (c : Cfg) (t : String) (fs : FS) (inputs : List String)
    (ev : Event) (h : ev ∈ (handle_existing_file_behavior c t fs inputs).2.2.1) :
    ev = Event.removed t := by
  cases hact : c.action with
  | fail =>
    rw [handle_existing_file_behavior, hact] at h
    exact absurd h (List.not_mem_nil ev)
  | skip =>
    rw [handle_existing_file_behavior, hact] at h
    exact absurd h (List.not_mem_nil ev)
  | execute =>
    rw [handle_existing_file_behavior, hact] at h
    exact remove_existing_file_events fs t ev h
  | ask =>
    rw [handle_existing_file_behavior, hact] at h
    cases har : ask_loop c.mode inputs with
    | mk r rest =>
      rw [har] at h
      cases r with
      | executed => exact remove_existing_file_events fs t ev h
      | skipped => exact absurd h (List.not_mem_nil ev)
      | failed => exact absurd h (List.not_mem_nil ev)
      | eof => exact absurd h (List.not_mem_nil ev)

theorem create_symlink_events (fs : FS) (src dest : String) (c : Cfg) (ev : Event)
    (h : ev ∈ (create_symlink fs src dest c).2) :
    ev = Event.removed dest ∨ ∃ v, ev = Event.symlinked v dest := by
  rw [create_symlink] at h
  cases hg : FS.get fs dest with
  | none =>
    rw [hg] at h
    rcases List.mem_singleton.mp h with h1
    exact Or.inr ⟨linkValue c src dest, h1⟩
  | some e =>
    rw [hg] at h
    cases e with
    | dir => exact absurd h (List.not_mem_nil ev)
    | file =>
      rcases List.mem_cons.mp h with h1 | h1
      · exact Or.inl h1
      · exact Or.inr ⟨linkValue c src dest, List.mem_singleton.mp h1⟩
    | link v =>
      rcases List.mem_cons.mp h with h1 | h1
      · exact Or.inl h1
      · exact Or.inr ⟨linkValue c src dest, List.mem_singleton.mp h1⟩

theorem processFile_events (c : Cfg) (fs : FS) (inputs : List String) (f : String)
    (ev : Event) (h : ev ∈ (processFile c fs inputs f).2.1) :
    (∃ a, ev = Event.mkdir a ∧ a ∈ ancChain (os_path_dirname (targetOf c f)) ∧
      FS.get fs a = none) ∨
    ev = Event.removed (targetOf c f) ∨
    (∃ v, ev = Event.symlinked v (targetOf c f)) := by
  rw [processFile] at h
  simp only [] at h
  by_cases hl : lexists (create_directory fs (os_path_dirname (targetOf c f))).1 (targetOf c f)
  · simp only [if_pos hl] at h
    cases hh : handle_existing_file_behavior c (targetOf c f)
        (create_directory fs (os_path_dirname (targetOf c f))).1 inputs with
    | mk r w =>
      rw [hh] at h
      cases w with
      | mk fs2 w2 =>
        cases w2 with
        | mk e2 inp2 =>
          have hhev : ∀ e, e ∈ e2 → e = Event.removed (targetOf c f) := by
            intro e he
            have := handle_existing_events c (targetOf c f)
              (create_directory fs (os_path_dirname (targetOf c f))).1 inputs e
            rw [hh] at this
            exact this he
          cases r with
          | failed =>
            rcases List.mem_append.mp h with h1 | h1
            · exact Or.inl (create_directory_events fs _ ev h1)
            · exact Or.inr (Or.inl (hhev ev h1))
          | eof =>
            rcases List.mem_append.mp h with h1 | h1
            · exact Or.inl (create_directory_events fs _ ev h1)
            · exact Or.inr (Or.inl (hhev ev h1))
          | skipped =>
            rcases List.mem_append.mp h with h1 | h1
            · exact Or.inl (create_directory_events fs _ ev h1)
            · exact Or.inr (Or.inl (hhev ev h1))
          | executed =>
            by_cases hm : c.mode = Mode.create
            · simp only [if_pos hm] at h
              rcases List.mem_append.mp h with h1 | h1
              · rcases List.mem_append.mp h1 with h2 | h2
                · exact Or.inl (create_directory_events fs _ ev h2)
                · exact Or.inr (Or.inl (hhev ev h2))
              · rcases create_symlink_events fs2 f (targetOf c f) c ev h1 with h2 | h2
                · exact Or.inr (Or.inl h2)
                · exact Or.inr (Or.inr h2)
            · simp only [if_neg hm] at h
              rcases List.mem_append.mp h with h1 | h1
              · exact Or.inl (create_directory_events fs _ ev h1)
              · exact Or.inr (Or.inl (hhev ev h1))
  · simp only [if_neg hl] at h
    by_cases hm : c.mode = Mode.create
    · simp only [if_pos hm] at h
      rcases List.mem_append.mp h with h1 | h1
      · exact Or.inl (create_directory_events fs _ ev h1)
      · rcases create_symlink_events _ f (targetOf c f) c ev h1 with h2 | h2
        · exact Or.inr (Or.inl h2)
        · exact Or.inr (Or.inr h2)
    · simp only [if_neg hm] at h
      exact Or.inl (create_directory_events fs _ ev h)


theorem inSubtree_comps (dsD w : List (List Char)) (hplD : plainList dsD)
    (_hplw : plainList w) (hwne : w ≠ []) :
    inSubtree ⟨'/' :: interSlash dsD⟩ ⟨'/' :: interSlash (dsD ++ w)⟩ = true := by
  rw [inSubtree]
  by_cases he : (⟨'/' :: interSlash (dsD ++ w)⟩ : String) = ⟨'/' :: interSlash dsD⟩
  · rw [if_pos he]
  · rw [if_neg he]
    cases hdsD : dsD with
    | nil =>
      have hg : (String.data ⟨'/' :: interSlash ([] : List (List Char))⟩).getLast?
          = some '/' := rfl
      rw [if_pos hg]
      rw [List.isPrefixOf_iff_prefix]
      show ('/' :: interSlash ([] : List (List Char))) <+: ('/' :: interSlash ([] ++ w))
      show ['/'] <+: ('/' :: interSlash w)
      exact ⟨interSlash w, rfl⟩
    | cons d0 dsr =>
      rw [← hdsD]
      have hdsne : dsD ≠ [] := by rw [hdsD]; exact List.cons_ne_nil _ _
      rw [if_neg (interSlash_getLast_ne_slash dsD (plainList_raw dsD hplD) hdsne)]
      rw [List.isPrefixOf_iff_prefix]
      show (('/' :: interSlash dsD) ++ ['/']) <+: ('/' :: interSlash (dsD ++ w))
      rw [interSlash_append dsD w hdsne hwne]
      refine ⟨interSlash w, ?_⟩
      simp

theorem plainList_append_of (l₁ l₂ : List (List Char)) (h₁ : plainList l₁)
    (h₂ : plainList l₂) : plainList (l₁ ++ l₂) := by
  intro comp hm
  rcases List.mem_append.mp hm with h | h
  · exact h₁ comp h
  · exact h₂ comp h

theorem plainList_take (l : List (List Char)) (k : Nat) (h : plainList l) :
    plainList (l.take k) :=
  fun comp hm => h comp (List.mem_of_mem_take hm)

theorem plainList_dropLast (l : List (List Char)) (h : plainList l) :
    plainList l.dropLast := by
  rw [List.dropLast_eq_take]
  exact plainList_take l (l.length - 1) h

theorem processFile_event_subtree (c : Cfg) (fs : FS) (inputs : List String) (f : String)
    (dsD : List (List Char)) (hplainD : plainList dsD)
    (hD : effDestRoot c = ⟨'/' :: interSlash dsD⟩)
    (hdirs : ∀ k : Nat, FS.get fs ⟨'/' :: interSlash (dsD.take k)⟩ = some Entry.dir)
    (cs : List (List Char)) (hplaincs : plainList cs) (hcsne : cs ≠ [])
    (hrelf : relOf c f = ⟨interSlash cs⟩) :
    ∀ ev ∈ (processFile c fs inputs f).2.1,
      inSubtree (effDestRoot c) (normPath (Event.path ev)) = true := by
  intro ev hev
  have hplainE : plainList (dsD ++ cs) := plainList_append_of dsD cs hplainD hplaincs
  have hEne : dsD ++ cs ≠ [] := by
    intro hcon
    exact hcsne (List.append_eq_nil.mp hcon).2
  have htarget : targetOf c f = ⟨'/' :: interSlash (dsD ++ cs)⟩ := by
    rw [targetOf, hD, hrelf]
    exact join_abs_comps dsD cs (plainList_raw dsD hplainD) (plainList_raw cs hplaincs) hcsne
  have hdirname : os_path_dirname (targetOf c f)
      = ⟨'/' :: interSlash (dsD ++ cs).dropLast⟩ := by
    rw [htarget]
    rw [show dsD ++ cs = (dsD ++ cs).dropLast ++ [(dsD ++ cs).getLast hEne] from
      (List.dropLast_append_getLast hEne).symm]
    rw [dirname_abs_comps (dsD ++ cs).dropLast ((dsD ++ cs).getLast hEne)
      (by rw [List.dropLast_append_getLast hEne]; exact hplainE)]
    rw [List.dropLast_append_getLast hEne]
  have hsub : ∀ w : List (List Char), plainList w → w ≠ [] →
      inSubtree (effDestRoot c) (normPath ⟨'/' :: interSlash (dsD ++ w)⟩) = true := by
    intro w hplw hwne
    rw [normPath_plain_abs (dsD ++ w) (plainList_append_of dsD w hplainD hplw), hD]
    exact inSubtree_comps dsD w hplainD hplw hwne
  rcases processFile_events c fs inputs f ev hev with ⟨a, hevm, ham, hanone⟩ | hrm | ⟨v, hsl⟩
  · rw [hdirname] at ham
    obtain ⟨k, hk, hae⟩ := ancChain_abs_comps (dsD ++ cs).dropLast
      (plainList_dropLast (dsD ++ cs) hplainE) a ham
    have htake : (dsD ++ cs).dropLast.take k = (dsD ++ cs).take k := by
      rw [List.dropLast_eq_take, List.take_take]
      rw [List.length_dropLast] at hk
      congr 1
      omega
    rw [htake] at hae
    rcases Nat.le_total k dsD.length with hkle | hkge2
    · exfalso
      rw [List.take_append_of_le_length hkle] at hae
      rw [hae] at hanone
      rw [hdirs k] at hanone
      exact Option.noConfusion hanone
    · by_cases hkeq : k ≤ dsD.length
      · exfalso
        rw [List.take_append_of_le_length hkeq] at hae
        rw [hae] at hanone
        rw [hdirs k] at hanone
        exact Option.noConfusion hanone
      obtain ⟨i, hi⟩ : ∃ i, k = dsD.length + i := ⟨k - dsD.length, by omega⟩
      have hipos : 0 < i := by omega
      rw [hi, List.take_append] at hae
      have hwne : cs.take i ≠ [] := by
        rw [ne_eq, List.take_eq_nil_iff]
        push_neg
        exact ⟨by omega, hcsne⟩
      rw [hevm]
      show inSubtree (effDestRoot c) (normPath a) = true
      rw [hae]
      exact hsub (cs.take i) (plainList_take cs i hplaincs) hwne
  · rw [hrm]
    show inSubtree (effDestRoot c) (normPath (targetOf c f)) = true
    rw [htarget]
    exact hsub cs hplaincs hcsne
  · rw [hsl]
    show inSubtree (effDestRoot c) (normPath (targetOf c f)) = true
    rw [htarget]
    exact hsub cs hplaincs hcsne

/-- C1 (amended): provided every computed relative destination path is a
normal relative path (nonempty plain components, in particular no `..` or `.`
segments introduced by the rewrite) and the destination root together with
all its ancestors are directories, every filesystem mutation of the run —
directory creation, file or symlink removal, symlink creation, in create or
delete mode, under any conflict policy — targets a path inside the subtree
rooted at the destination root. The rewrite escape hatch refutes the claim
when `..` segments appear (see the counterexample). -/
theorem c1_subtree (c : Cfg) (files : List String) (fs : FS) (inputs : List String)
    (dsD : List (List Char)) (hplainD : plainList dsD)
    (hD : effDestRoot c = ⟨'/' :: interSlash dsD⟩)
    (hdirs : ∀ k : Nat, FS.get fs ⟨'/' :: interSlash (dsD.take k)⟩ = some Entry.dir)
    (hrel : ∀ f ∈ files, ∃ cs, plainList cs ∧ cs ≠ [] ∧ relOf c f = ⟨interSlash cs⟩) :
    ∀ ev ∈ (decorate_symlinks c files fs inputs).events,
      inSubtree (effDestRoot c) (normPath (Event.path ev)) = true := by
  induction files generalizing fs inputs with
  | nil =>
    intro ev hev
    exact absurd hev (List.not_mem_nil ev)
  | cons f rest ih =>
    intro ev hev
    obtain ⟨cs, hplaincs, hcsne, hrelf⟩ := hrel f (List.mem_cons_self f rest)
    have hstep := processFile_event_subtree c fs inputs f dsD hplainD hD hdirs
      cs hplaincs hcsne hrelf
    have hdirs2 : ∀ k : Nat, FS.get (processFile c fs inputs f).1
        ⟨'/' :: interSlash (dsD.take k)⟩ = some Entry.dir := by
      intro k
      exact processFile_of_dir c fs inputs f (normPath ⟨'/' :: interSlash (dsD.take k)⟩)
        (hdirs k)
    rw [decorate_symlinks] at hev
    cases hp : processFile c fs inputs f with
    | mk fs1 w =>
      rw [hp] at hev hstep hdirs2
      cases w with
      | mk evs w2 =>
        cases w2 with
        | mk inp1 ost =>
          cases ost with
          | some st => exact hstep ev hev
          | none =>
            rcases List.mem_append.mp hev with h1 | h1
            · exact hstep ev h1
            · exact ih fs1 inp1 hdirs2
                (fun g hg => hrel g (List.mem_cons_of_mem f hg)) ev h1

/-- C1 (counterexample): a rewrite rule that introduces `..` makes the run
create a symlink at `/d/../evil`, i.e. at `/evil`, outside the subtree rooted
at the destination root `/d`. -/
theorem c1_cex :
    Event.symlinked "/s/a.txt" "/d/../evil" ∈
      (decorate_symlinks cfgEscape ["/s/a.txt"] fsEscape []).events ∧
    Event.path (Event.symlinked "/s/a.txt" "/d/../evil") = "/d/../evil" ∧
    normPath "/d/../evil" = "/evil" ∧
    effDestRoot cfgEscape = "/d" ∧
    inSubtree (effDestRoot cfgEscape) (normPath "/d/../evil") = false := by
  refine ⟨by decide, rfl, by decide, by decide, by decide⟩

/-- C1 (witness): the amended statement evaluated on a concrete create run
whose mkdir event stays inside the destination subtree. -/
theorem c1_subtree_witness :
    effDestRoot cfgCreate = ⟨'/' :: interSlash [['d']]⟩ ∧
    plainList [['d']] ∧
    Event.mkdir "/d/a" ∈ (decorate_symlinks cfgCreate ["/s/a/b.txt"] fsPlain []).events ∧
    inSubtree (effDestRoot cfgCreate) (normPath (Event.path (Event.mkdir "/d/a"))) = true := by
  refine ⟨by decide, by decide, by decide, ?_⟩
  refine c1_subtree cfgCreate ["/s/a/b.txt"] fsPlain [] [['d']] (by decide) (by decide)
    ?_ ?_ (Event.mkdir "/d/a") (by decide)
  · intro k
    cases k with
    | zero => decide
    | succ n =>
      show FS.get fsPlain ⟨'/' :: interSlash (List.take (n + 1) [['d']])⟩ = some Entry.dir
      rw [show List.take (n + 1) [['d']] = [['d']] from by
        rw [List.take_succ_cons]
        simp]
      decide
  · intro f hf
    rw [List.mem_singleton] at hf
    subst hf
    exact ⟨[['a'], ['b', '.', 't', 'x', 't']], by decide, by decide, by decide⟩


theorem splitSep_sep_not_mem (sep : Char) (l : List Char) :
    ∀ t ∈ splitSep sep l, sep ∉ t := by
  induction l with
  | nil =>
    intro t ht
    rw [List.mem_singleton.mp ht]
    exact List.not_mem_nil sep
  | cons c cs ih =>
    intro t ht
    rw [splitSep] at ht
    cases hx : splitSep sep cs with
    | nil => exact absurd hx (splitSep_ne_nil sep cs)
    | cons t0 ts =>
      rw [hx] at ht
      by_cases hc : c = sep
      · simp only [if_pos hc] at ht
        rcases List.mem_cons.mp ht with h1 | h1
        · rw [h1]
          exact List.not_mem_nil sep
        · exact ih t (by rw [hx]; exact h1)
      · simp only [if_neg hc] at ht
        rcases List.mem_cons.mp ht with h1 | h1
        · rw [h1]
          intro hm
          rcases List.mem_cons.mp hm with h2 | h2
          · exact hc h2.symm
          · exact ih t0 (by rw [hx]; exact List.mem_cons_self t0 ts) h2
        · exact ih t (by rw [hx]; exact List.mem_cons_of_mem t0 h1)

theorem foldl_normStep_abs_plain (comps : List (List Char))
    (hslash : ∀ t ∈ comps, '/' ∉ t) :
    ∀ acc, plainList acc → plainList (comps.foldl (normStep true) acc) := by
  induction comps with
  | nil => exact fun acc h => h
  | cons c rest ih =>
    intro acc hacc
    rw [List.foldl_cons]
    refine ih (fun t ht => hslash t (List.mem_cons_of_mem c ht)) _ ?_
    rw [normStep.eq_def]
    by_cases h1 : c = [] ∨ c = ['.']
    · rw [if_pos h1]
      exact hacc
    · rw [if_neg h1]
      by_cases h2 : c = ['.', '.']
      · rw [if_pos h2]
        cases hac : acc with
        | nil =>
          rw [if_pos rfl]
          intro comp hm
          exact absurd hm (List.not_mem_nil comp)
        | cons a r =>
          have ha : plainComp a := hacc a (by rw [hac]; exact List.mem_cons_self a r)
          rw [show (match a :: r with
            | ([] : List (List Char)) => if true = true then [] else [c]
            | a :: rest => if a = ['.', '.'] then c :: a :: rest else rest)
            = if a = ['.', '.'] then c :: a :: r else r from rfl]
          rw [if_neg ha.2.2.2]
          intro comp hm
          exact hacc comp (by rw [hac]; exact List.mem_cons_of_mem a hm)
      · rw [if_neg h2]
        intro comp hm
        rcases List.mem_cons.mp hm with h3 | h3
        · rw [h3]
          push_neg at h1
          exact ⟨h1.1, hslash c (List.mem_cons_self c rest), h1.2, h2⟩
        · exact hacc comp h3

theorem normComps_abs_plain (l : List Char) :
    plainList (normComps true (splitSlash l)) := by
  rw [normComps]
  intro comp hm
  rw [List.mem_reverse] at hm
  exact foldl_normStep_abs_plain (splitSlash l)
    (fun t ht => splitSep_sep_not_mem '/' l t ht) [] (fun x hx => absurd hx (List.not_mem_nil x))
    comp hm

theorem filter_ne_nil_of_raw (cs : List (List Char)) (h : rawList cs) :
    cs.filter (fun c => c ≠ []) = cs := by
  rw [List.filter_eq_self]
  intro a ha
  simpa using (h a ha).1

theorem abspath_normal (cwd p : String) (hcwd : isAbsL cwd.data = true) :
    plainList (compsOf (os_path_abspath cwd p)) ∧
    os_path_abspath cwd p = ⟨'/' :: interSlash (compsOf (os_path_abspath cwd p))⟩ := by
  have hcwdne : cwd.data ≠ [] := by
    intro he
    rw [he] at hcwd
    exact absurd hcwd (by decide)
  have habsq : isAbsL (if isAbsL p.data then p else os_path_join cwd p).data = true := by
    by_cases hp : isAbsL p.data
    · rw [if_pos hp]
      exact hp
    · rw [if_neg hp]
      rw [os_path_join, if_neg hp]
      by_cases h2 : cwd.data = [] ∨ cwd.data.getLast? = some '/'
      · rw [if_pos h2]
        show isAbsL (cwd.data ++ p.data) = true
        rw [isAbsL, List.head?_append]
        rcases h2 with h2 | h2
        · exact absurd h2 hcwdne
        · rw [isAbsL] at hcwd
          rw [decide_eq_true_iff] at hcwd
          rw [hcwd]
          rfl
      · rw [if_neg h2]
        show isAbsL (cwd.data ++ '/' :: p.data) = true
        rw [isAbsL, List.head?_append]
        rw [isAbsL] at hcwd
        rw [decide_eq_true_iff] at hcwd
        rw [hcwd]
        rfl
  rw [os_path_abspath, normPath]
  simp only [habsq, if_pos]
  set cs := normComps true (splitSlash (if isAbsL p.data then p else os_path_join cwd p).data)
    with hcs
  have hplain : plainList cs := normComps_abs_plain _
  have hcomp : compsOf ⟨'/' :: interSlash cs⟩ = cs := by
    rw [compsOf]
    cases hcse : cs with
    | nil =>
      show List.filter (fun c => c ≠ []) (splitSlash ['/']) = []
      decide
    | cons c0 cs' =>
      rw [← hcse]
      have hcsne : cs ≠ [] := by rw [hcse]; exact List.cons_ne_nil _ _
      have hraw : rawList cs := plainList_raw cs hplain
      show List.filter (fun c => c ≠ []) (splitSlash ('/' :: interSlash cs)) = cs
      have hsplit : splitSlash ('/' :: interSlash cs) = [] :: cs := by
        show splitSep '/' ('/' :: interSlash cs) = [] :: cs
        cases hx : splitSep '/' (interSlash cs) with
        | nil => exact absurd hx (splitSep_ne_nil '/' _)
        | cons t ts =>
          rw [splitSep, hx]
          rw [show splitSep '/' (interSlash cs) = splitSlash (interSlash cs) from rfl] at hx
          rw [splitSlash_interSlash cs hraw hcsne] at hx
          rw [show (match t :: ts with
            | [] => [['/']]
            | t :: ts => if '/' = '/' then [] :: t :: ts else ('/' :: t) :: ts)
            = [] :: t :: ts from by simp]
          rw [hx]
      rw [hsplit]
      rw [List.filter_cons]
      simp only [ne_eq, not_true_eq_false, decide_False, Bool.false_eq_true, if_false]
      exact filter_ne_nil_of_raw cs hraw
  exact ⟨by rw [hcomp]; exact hplain, by rw [hcomp]⟩


theorem commonLen_le_left : ∀ (a b : List (List Char)), commonLen a b ≤ a.length := by
  intro a
  induction a with
  | nil =>
    intro b
    cases b <;> simp [commonLen]
  | cons x as ih =>
    intro b
    cases b with
    | nil => simp [commonLen]
    | cons y bs =>
      rw [commonLen]
      by_cases hxy : x = y
      · rw [if_pos hxy]
        simp only [List.length_cons]
        exact Nat.succ_le_succ (ih bs)
      · rw [if_neg hxy]
        exact Nat.zero_le _

theorem commonLen_le_right : ∀ (a b : List (List Char)), commonLen a b ≤ b.length := by
  intro a
  induction a with
  | nil =>
    intro b
    cases b <;> simp [commonLen]
  | cons x as ih =>
    intro b
    cases b with
    | nil => simp [commonLen]
    | cons y bs =>
      rw [commonLen]
      by_cases hxy : x = y
      · rw [if_pos hxy]
        simp only [List.length_cons]
        exact Nat.succ_le_succ (ih bs)
      · rw [if_neg hxy]
        exact Nat.zero_le _

theorem commonLen_take : ∀ (a b : List (List Char)),
    a.take (commonLen a b) = b.take (commonLen a b) := by
  intro a
  induction a with
  | nil =>
    intro b
    cases b <;> simp [commonLen]
  | cons x as ih =>
    intro b
    cases b with
    | nil => simp [commonLen]
    | cons y bs =>
      rw [commonLen]
      by_cases hxy : x = y
      · rw [if_pos hxy]
        rw [List.take_succ_cons, List.take_succ_cons, hxy, ih bs]
      · rw [if_neg hxy]
        rfl

theorem normStep_dotdot (acc : List (List Char)) :
    normStep true acc ['.', '.'] = (match acc with
      | [] => []
      | a :: rest => if a = ['.', '.'] then ['.', '.'] :: a :: rest else rest) := by
  rw [normStep.eq_def]
  rw [if_neg (by decide)]
  rw [if_pos rfl]
  cases acc with
  | nil => rfl
  | cons a rest => rfl

theorem reverse_eq_getLast_cons (D : List (List Char)) (hne : D ≠ []) :
    D.reverse = D.getLast hne :: D.dropLast.reverse := by
  conv_lhs => rw [← List.dropLast_append_getLast hne]
  rw [List.reverse_append]
  rfl

theorem foldl_normStep_pop (k : Nat) : ∀ (D : List (List Char)), plainList D →
    k ≤ D.length →
    (List.replicate k ['.', '.']).foldl (normStep true) D.reverse
      = (D.take (D.length - k)).reverse := by
  induction k with
  | zero =>
    intro D hD hk
    rw [List.replicate_zero, List.foldl_nil, Nat.sub_zero, List.take_length]
  | succ kp ih =>
    intro D hD hk
    have hne : D ≠ [] := by
      intro he
      rw [he] at hk
      exact Nat.not_succ_le_zero kp hk
    rw [List.replicate_succ, List.foldl_cons]
    rw [normStep_dotdot]
    rw [reverse_eq_getLast_cons D hne]
    have hlast : D.getLast hne ≠ ['.', '.'] :=
      (hD (D.getLast hne) (List.getLast_mem hne)).2.2.2
    rw [show (match D.getLast hne :: D.dropLast.reverse with
      | ([] : List (List Char)) => []
      | a :: rest => if a = ['.', '.'] then ['.', '.'] :: a :: rest else rest)
      = if D.getLast hne = ['.', '.'] then ['.', '.'] :: D.getLast hne :: D.dropLast.reverse
        else D.dropLast.reverse from rfl]
    rw [if_neg hlast]
    have hplast : plainList D.dropLast := plainList_dropLast D hD
    have hklen : kp ≤ D.dropLast.length := by
      rw [List.length_dropLast]
      omega
    rw [ih D.dropLast hplast hklen]
    have htake : D.dropLast.take (D.dropLast.length - kp) = D.take (D.length - (kp + 1)) := by
      rw [List.length_dropLast, List.dropLast_eq_take, List.take_take]
      congr 1
      omega
    rw [htake]

theorem normPath_abs_raw (L : List (List Char)) (hL : rawList L) (hne : L ≠ []) :
    normPath ⟨'/' :: interSlash L⟩
      = ⟨'/' :: interSlash ((L.foldl (normStep true) []).reverse)⟩ := by
  rw [normPath]
  have habs : isAbsL (String.data ⟨'/' :: interSlash L⟩) = true := rfl
  simp only [habs, if_pos]
  have hsplit : splitSlash (String.data ⟨'/' :: interSlash L⟩) = [] :: L := by
    show splitSep '/' ('/' :: interSlash L) = [] :: L
    cases hx : splitSep '/' (interSlash L) with
    | nil => exact absurd hx (splitSep_ne_nil '/' _)
    | cons t ts =>
      rw [splitSep, hx]
      rw [show splitSep '/' (interSlash L) = splitSlash (interSlash L) from rfl] at hx
      rw [splitSlash_interSlash L hL hne] at hx
      rw [show (match t :: ts with
        | [] => [['/']]
        | t :: ts => if '/' = '/' then [] :: t :: ts else ('/' :: t) :: ts)
        = [] :: t :: ts from by simp]
      rw [hx]
  rw [hsplit]
  rw [normComps, List.foldl_cons]
  rw [show normStep true [] [] = [] from rfl]

theorem relpath_roundtrip (cwd src d : String) (hcwd : isAbsL cwd.data = true) :
    normPath (os_path_join (os_path_abspath cwd d) (os_path_relpath cwd src d))
      = os_path_abspath cwd src := by
  obtain ⟨hSplain, hSrep⟩ := abspath_normal cwd src hcwd
  obtain ⟨hDplain, hDrep⟩ := abspath_normal cwd d hcwd
  rw [os_path_relpath]
  set S := compsOf (os_path_abspath cwd src) with hS
  set D := compsOf (os_path_abspath cwd d) with hD
  set i := commonLen S D with hi
  have hile : i ≤ D.length := commonLen_le_right S D
  have hileS : i ≤ S.length := commonLen_le_left S D
  by_cases hrel : (List.replicate (D.length - i) ['.', '.'] ++ S.drop i) = []
  · simp only [if_pos hrel]
    obtain ⟨hrep, hdrop⟩ := List.append_eq_nil.mp hrel
    have hiD : i = D.length := by
      rw [List.replicate_eq_nil_iff] at hrep
      omega
    have hiS : i = S.length := by
      rw [List.drop_eq_nil_iff] at hdrop
      omega
    have hSD : S = D := by
      have h1 := commonLen_take S D
      rw [← hi] at h1
      rw [show S.take i = S from by rw [hiS]; exact List.take_length S] at h1
      rw [show D.take i = D from by rw [hiD]; exact List.take_length D] at h1
      exact h1
    rw [hDrep]
    have hdotraw : rawList [['.']] := by
      intro comp hm
      rw [List.mem_singleton.mp hm]
      exact ⟨List.cons_ne_nil _ _, by decide⟩
    rw [show ("." : String) = ⟨interSlash [['.']]⟩ from rfl]
    rw [join_abs_comps D [['.']] (plainList_raw D hDplain) hdotraw (List.cons_ne_nil _ _)]
    rw [normPath_abs_raw (D ++ [['.']])
      (by
        intro comp hm
        rcases List.mem_append.mp hm with h1 | h1
        · exact plainList_raw D hDplain comp h1
        · rw [List.mem_singleton.mp h1]
          exact ⟨List.cons_ne_nil _ _, by decide⟩)
      (by intro he; exact List.noConfusion ((List.append_eq_nil.mp he).2))]
    rw [List.foldl_append]
    rw [foldl_normStep_plain true D [] hDplain]
    rw [List.append_nil, List.foldl_cons, List.foldl_nil]
    rw [show normStep true D.reverse ['.'] = D.reverse from by
      rw [normStep.eq_def, if_pos (Or.inr rfl)]]
    rw [List.reverse_reverse]
    rw [hSrep, hSD]
  · simp only [if_neg hrel]
    have hrelraw : rawList (List.replicate (D.length - i) ['.', '.'] ++ S.drop i) := by
      intro comp hm
      rcases List.mem_append.mp hm with h1 | h1
      · rw [List.eq_of_mem_replicate h1]
        exact ⟨List.cons_ne_nil _ _, by decide⟩
      · exact plainList_raw S hSplain comp (List.mem_of_mem_drop h1)
    rw [hDrep]
    rw [join_abs_comps D _ (plainList_raw D hDplain) hrelraw hrel]
    rw [normPath_abs_raw (D ++ (List.replicate (D.length - i) ['.', '.'] ++ S.drop i))
      (by
        intro comp hm
        rcases List.mem_append.mp hm with h1 | h1
        · exact plainList_raw D hDplain comp h1
        · exact hrelraw comp h1)
      (by
        intro he
        exact hrel (List.append_eq_nil.mp he).2)]
    rw [List.foldl_append, List.foldl_append]
    rw [foldl_normStep_plain true D [] hDplain]
    rw [List.append_nil]
    rw [foldl_normStep_pop (D.length - i) D hDplain (by omega)]
    rw [show D.length - (D.length - i) = i from by omega]
    rw [foldl_normStep_plain true (S.drop i) _
      (fun comp hm => hSplain comp (List.mem_of_mem_drop hm))]
    rw [← List.reverse_append]
    rw [List.reverse_reverse]
    have htk : D.take i = S.take i := (commonLen_take S D).symm
    rw [htk, List.take_append_drop]
    rw [hSrep]


theorem create_symlink_symlinked (fs : FS) (src dest : String) (c : Cfg) (v t : String)
    (h : Event.symlinked v t ∈ (create_symlink fs src dest c).2) :
    t = dest ∧ v = linkValue c src dest := by
  rw [create_symlink] at h
  cases hg : FS.get fs dest with
  | none =>
    rw [hg] at h
    have := List.mem_singleton.mp h
    injection this with h1 h2
    exact ⟨h2, h1⟩
  | some e =>
    rw [hg] at h
    cases e with
    | dir => exact absurd h (List.not_mem_nil _)
    | file =>
      rcases List.mem_cons.mp h with h1 | h1
      · exact Event.noConfusion h1
      · have := List.mem_singleton.mp h1
        injection this with h1 h2
        exact ⟨h2, h1⟩
    | link w =>
      rcases List.mem_cons.mp h with h1 | h1
      · exact Event.noConfusion h1
      · have := List.mem_singleton.mp h1
        injection this with h1 h2
        exact ⟨h2, h1⟩

theorem processFile_symlinked (c : Cfg) (fs : FS) (inputs : List String) (f v t : String)
    (h : Event.symlinked v t ∈ (processFile c fs inputs f).2.1) :
    t = targetOf c f ∧ v = linkValue c f (targetOf c f) := by
  have hmk : ∀ (fsx : FS) (d : String), Event.symlinked v t ∈ (create_directory fsx d).2 →
      False := by
    intro fsx d hm
    obtain ⟨a, hae, _, _⟩ := create_directory_events fsx d _ hm
    exact Event.noConfusion hae
  have hrm : ∀ (fsx : FS) (inpx : List String),
      Event.symlinked v t ∈ (handle_existing_file_behavior c (targetOf c f) fsx inpx).2.2.1 →
      False := by
    intro fsx inpx hm
    exact Event.noConfusion (handle_existing_events c (targetOf c f) fsx inpx _ hm)
  rw [processFile] at h
  simp only [] at h
  by_cases hl : lexists (create_directory fs (os_path_dirname (targetOf c f))).1 (targetOf c f)
  · simp only [if_pos hl] at h
    cases hh : handle_existing_file_behavior c (targetOf c f)
        (create_directory fs (os_path_dirname (targetOf c f))).1 inputs with
    | mk r w =>
      rw [hh] at h
      cases w with
      | mk fs2 w2 =>
        cases w2 with
        | mk e2 inp2 =>
          have he2 : Event.symlinked v t ∈ e2 → False := by
            intro hm
            refine hrm (create_directory fs (os_path_dirname (targetOf c f))).1 inputs ?_
            rw [hh]
            exact hm
          cases r with
          | failed =>
            rcases List.mem_append.mp h with h1 | h1
            · exact absurd h1 (fun hm => hmk _ _ hm)
            · exact absurd h1 he2
          | eof =>
            rcases List.mem_append.mp h with h1 | h1
            · exact absurd h1 (fun hm => hmk _ _ hm)
            · exact absurd h1 he2
          | skipped =>
            rcases List.mem_append.mp h with h1 | h1
            · exact absurd h1 (fun hm => hmk _ _ hm)
            · exact absurd h1 he2
          | executed =>
            by_cases hm : c.mode = Mode.create
            · simp only [if_pos hm] at h
              rcases List.mem_append.mp h with h1 | h1
              · rcases List.mem_append.mp h1 with h2 | h2
                · exact absurd h2 (fun hmm => hmk _ _ hmm)
                · exact absurd h2 he2
              · exact create_symlink_symlinked fs2 f (targetOf c f) c v t h1
            · simp only [if_neg hm] at h
              rcases List.mem_append.mp h with h1 | h1
              · exact absurd h1 (fun hmm => hmk _ _ hmm)
              · exact absurd h1 he2
  · simp only [if_neg hl] at h
    by_cases hm : c.mode = Mode.create
    · simp only [if_pos hm] at h
      rcases List.mem_append.mp h with h1 | h1
      · exact absurd h1 (fun hmm => hmk _ _ hmm)
      · exact create_symlink_symlinked _ f (targetOf c f) c v t h1
    · simp only [if_neg hm] at h
      exact absurd h (fun hmm => hmk _ _ hmm)

/-- C8: in relative-link mode, every symlink created by the run stores a
target that, resolved against the directory containing the destination file
(normalize of join), denotes the same file as the absolute source path —
independent of the working directory at read time. -/
theorem c8_relative_resolves (c : Cfg) (files : List String) (fs : FS)
    (inputs : List String) (hrel : c.relative_symlink = true)
    (hcwd : isAbsL c.cwd.data = true) :
    ∀ ev ∈ (decorate_symlinks c files fs inputs).events, ∀ v t,
      ev = Event.symlinked v t →
      ∃ f ∈ files, t = targetOf c f ∧
        v = os_path_relpath c.cwd f (os_path_dirname t) ∧
        normPath (os_path_join (os_path_abspath c.cwd (os_path_dirname t)) v)
          = os_path_abspath c.cwd f := by
  induction files generalizing fs inputs with
  | nil =>
    intro ev hev
    exact absurd hev (List.not_mem_nil ev)
  | cons f rest ih =>
    intro ev hev v t heq
    subst heq
    have hstep : Event.symlinked v t ∈ (processFile c fs inputs f).2.1 →
        ∃ g ∈ f :: rest, t = targetOf c g ∧
          v = os_path_relpath c.cwd g (os_path_dirname t) ∧
          normPath (os_path_join (os_path_abspath c.cwd (os_path_dirname t)) v)
            = os_path_abspath c.cwd g := by
      intro hm
      obtain ⟨ht, hv⟩ := processFile_symlinked c fs inputs f v t hm
      have hv2 : v = os_path_relpath c.cwd f (os_path_dirname t) := by
        rw [hv, linkValue, if_pos hrel, ht]
      refine ⟨f, List.mem_cons_self f rest, ht, hv2, ?_⟩
      rw [hv2]
      exact relpath_roundtrip c.cwd f (os_path_dirname t) hcwd
    rw [decorate_symlinks] at hev
    cases hp : processFile c fs inputs f with
    | mk fs1 w =>
      rw [hp] at hev hstep
      cases w with
      | mk evs w2 =>
        cases w2 with
        | mk inp1 ost =>
          cases ost with
          | some st => exact hstep hev
          | none =>
            rcases List.mem_append.mp hev with h1 | h1
            · exact hstep h1
            · obtain ⟨g, hg, hrest⟩ := ih fs1 inp1 _ h1 v t rfl
              exact ⟨g, List.mem_cons_of_mem f hg, hrest⟩

/-- C8 (witness): the statement evaluated on a concrete `--relative` run: the
stored link target `../../s/a/b.txt`, resolved against the link's directory,
is the absolute source path. -/
theorem c8_relative_resolves_witness :
    cfgRelative.relative_symlink = true ∧
    isAbsL cfgRelative.cwd.data = true ∧
    Event.symlinked "../../s/a/b.txt" "../d/a/b.txt" ∈
      (decorate_symlinks cfgRelative ["../s/a/b.txt"] fsPlain []).events ∧
    ∃ f ∈ (["../s/a/b.txt"] : List String), "../d/a/b.txt" = targetOf cfgRelative f ∧
      "../../s/a/b.txt" = os_path_relpath cfgRelative.cwd f
        (os_path_dirname "../d/a/b.txt") ∧
      normPath (os_path_join (os_path_abspath cfgRelative.cwd
          (os_path_dirname "../d/a/b.txt")) "../../s/a/b.txt")
        = os_path_abspath cfgRelative.cwd f :=
  ⟨rfl, rfl, by decide,
    c8_relative_resolves cfgRelative ["../s/a/b.txt"] fsPlain [] rfl rfl
      (Event.symlinked "../../s/a/b.txt" "../d/a/b.txt") (by decide)
      "../../s/a/b.txt" "../d/a/b.txt" rfl⟩


theorem set_set (fs : FS) (p : String) (e e' : Option Entry) :
    FS.set (FS.set fs p e) p e' = FS.set fs p e' := by
  funext q
  rw [set_raw, set_raw, set_raw]
  by_cases hq : q = normPath p
  · rw [if_pos hq, if_pos hq]
  · rw [if_neg hq, if_neg hq, if_neg hq]

theorem set_id (fs : FS) (p : String) (e : Option Entry) (h : fs (normPath p) = e) :
    FS.set fs p e = fs := by
  funext q
  rw [set_raw]
  by_cases hq : q = normPath p
  · rw [if_pos hq, hq, h]
  · rw [if_neg hq]

theorem conflictFree_false_of_entry (fs : FS) (chain : List String) (a : String)
    (e : Entry) (ha : a ∈ chain) (hg : FS.get fs a = some e) (hne : e ≠ Entry.dir) :
    conflictFree fs chain = false := by
  rw [conflictFree, List.all_eq_false]
  refine ⟨a, ha, ?_⟩
  rw [hg]
  cases e with
  | dir => exact absurd rfl hne
  | file => exact fun hc => Bool.noConfusion hc
  | link v => exact fun hc => Bool.noConfusion hc

theorem conflictFree_false_elim (fs : FS) (chain : List String)
    (h : conflictFree fs chain = false) :
    ∃ a ∈ chain, ∃ e, FS.get fs a = some e ∧ e ≠ Entry.dir := by
  rw [conflictFree, List.all_eq_false] at h
  obtain ⟨a, ha, hp⟩ := h
  refine ⟨a, ha, ?_⟩
  cases hg : FS.get fs a with
  | none =>
    rw [hg] at hp
    exact absurd rfl hp
  | some e =>
    rw [hg] at hp
    cases e with
    | dir => exact absurd rfl hp
    | file => exact ⟨Entry.file, rfl, fun hc => Entry.noConfusion hc⟩
    | link v => exact ⟨Entry.link v, rfl, fun hc => Entry.noConfusion hc⟩

theorem create_directory_state (fs : FS) (d : String) :
    (create_directory fs d).1 = if FS.get fs d = none then
      (if conflictFree fs (ancChain d) then mkAllFs fs (ancChain d) else fs) else fs := by
  cases hg : FS.get fs d with
  | none =>
    rw [create_directory, pexists_of_get_none fs d hg]
    simp only [Bool.false_eq_true, if_false, if_pos rfl]
    by_cases hc : conflictFree fs (ancChain d)
    · simp only [if_pos hc]
      rfl
    · simp only [if_neg hc]
      rfl
  | some e =>
    rw [if_neg (show ¬(some e = (none : Option Entry)) from fun hc => Option.noConfusion hc)]
    cases e with
    | dir =>
      rw [create_directory, pexists_of_get_dir fs d hg]
      rfl
    | file =>
      rw [create_directory, pexists_of_get_file fs d hg]
      rfl
    | link v =>
      rw [create_directory]
      by_cases hp : pexists fs FUEL d
      · rw [if_pos hp]
      · rw [if_neg hp]
        have hcf : ¬(conflictFree fs (ancChain d) = true) := by
          rw [conflictFree_false_of_entry fs (ancChain d) d (Entry.link v)
            (ancChain_self d) hg (fun hc => Entry.noConfusion hc)]
          exact fun hc => Bool.noConfusion hc
        simp only [if_neg hcf]

theorem create_directory_stepDirFs (c : Cfg) (fs : FS) (f : String) :
    (create_directory fs (os_path_dirname (targetOf c f))).1 = stepDirFs c fs f := by
  rw [stepDirFs]
  exact create_directory_state fs (os_path_dirname (targetOf c f))

theorem processFile_fs_stepS (c : Cfg) (fs : FS) (inputs : List String) (f : String)
    (hm : c.mode = Mode.create) (ha : c.action = OnExists.execute) :
    (processFile c fs inputs f).1 = stepS c fs f := by
  rw [processFile, stepS]
  simp only []
  rw [← create_directory_stepDirFs c fs f]
  set fs1 := (create_directory fs (os_path_dirname (targetOf c f))).1 with hfs1
  cases hgt : FS.get fs1 (targetOf c f) with
  | none =>
    rw [show lexists fs1 (targetOf c f) = false from by rw [lexists, hgt]; rfl]
    simp only [Bool.false_eq_true, if_false, if_pos hm]
    rw [create_symlink, hgt]
  | some e =>
    rw [show lexists fs1 (targetOf c f) = true from by rw [lexists, hgt]; rfl]
    simp only [if_true]
    rw [handle_existing_file_behavior, ha]
    cases e with
    | dir =>
      rw [remove_existing_file, if_pos (pexists_of_get_dir fs1 (targetOf c f) hgt), hgt]
      simp only [if_pos hm]
      rw [create_symlink, hgt]
    | file =>
      rw [remove_existing_file, if_pos (pexists_of_get_file fs1 (targetOf c f) hgt), hgt]
      simp only [if_pos hm]
      rw [create_symlink]
      rw [get_set_self fs1 (targetOf c f) none]
      exact set_set fs1 (targetOf c f) none
        (some (Entry.link (linkValue c f (targetOf c f))))
    | link v =>
      rw [remove_existing_file]
      by_cases hp : pexists fs1 FUEL (targetOf c f)
      · rw [if_pos hp, hgt]
        simp only [if_pos hm]
        rw [create_symlink]
        rw [get_set_self fs1 (targetOf c f) none]
        exact set_set fs1 (targetOf c f) none
          (some (Entry.link (linkValue c f (targetOf c f))))
      · rw [if_neg hp]
        simp only [if_pos hm]
        rw [create_symlink, hgt]
        exact set_set fs1 (targetOf c f) none
          (some (Entry.link (linkValue c f (targetOf c f))))

theorem processFile_execute_inputs (c : Cfg) (fs : FS) (inputs : List String) (f : String)
    (ha : c.action = OnExists.execute) :
    (processFile c fs inputs f).2.2.1 = inputs := by
  rw [processFile]
  simp only []
  by_cases hl : lexists (create_directory fs (os_path_dirname (targetOf c f))).1 (targetOf c f)
  · simp only [if_pos hl]
    rw [handle_existing_file_behavior, ha]
    by_cases hmc : c.mode = Mode.create
    · simp only [if_pos hmc]
    · simp only [if_neg hmc]
  · simp only [if_neg hl]
    by_cases hmc : c.mode = Mode.create
    · simp only [if_pos hmc]
    · simp only [if_neg hmc]

theorem decorate_execute_create_fs (c : Cfg) (files : List String) (fs : FS)
    (inputs : List String) (hm : c.mode = Mode.create) (ha : c.action = OnExists.execute) :
    (decorate_symlinks c files fs inputs).fs = files.foldl (stepS c) fs := by
  induction files generalizing fs inputs with
  | nil => rfl
  | cons f rest ih =>
    rw [decorate_symlinks]
    have hst := processFile_execute_status c fs inputs f ha
    have hfs := processFile_fs_stepS c fs inputs f hm ha
    cases hp : processFile c fs inputs f with
    | mk fs1 w =>
      rw [hp] at hst hfs
      cases w with
      | mk evs w2 =>
        cases w2 with
        | mk inp1 ost =>
          cases ost with
          | some st => exact Option.noConfusion hst
          | none =>
            show (decorate_symlinks c rest fs1 inp1).fs = (f :: rest).foldl (stepS c) fs
            rw [List.foldl_cons, ← hfs]
            exact ih fs1 inp1


theorem mkAllFs_untouched (fs : FS) (chain : List String) (q : String)
    (h : fs q ≠ none) : mkAllFs fs chain q = fs q := by
  rw [mkAllFs, if_neg (fun hc => h hc.2)]

theorem stepDirFs_untouched (c : Cfg) (fs : FS) (f : String) (q : String)
    (h : fs q ≠ none) : stepDirFs c fs f q = fs q := by
  rw [stepDirFs]
  by_cases h1 : FS.get fs (os_path_dirname (targetOf c f)) = none
  · rw [if_pos h1]
    by_cases h2 : conflictFree fs (ancChain (os_path_dirname (targetOf c f)))
    · simp only [if_pos h2]
      exact mkAllFs_untouched fs _ q h
    · simp only [if_neg h2]
  · rw [if_neg h1]

theorem stepDirFs_none_or_dir (c : Cfg) (fs : FS) (f : String) (q : String)
    (h : fs q = none) :
    stepDirFs c fs f q = none ∨ stepDirFs c fs f q = some Entry.dir := by
  rw [stepDirFs]
  by_cases h1 : FS.get fs (os_path_dirname (targetOf c f)) = none
  · rw [if_pos h1]
    by_cases h2 : conflictFree fs (ancChain (os_path_dirname (targetOf c f)))
    · simp only [if_pos h2]
      rw [mkAllFs]
      by_cases h3 : (∃ a ∈ ancChain (os_path_dirname (targetOf c f)), normPath a = q) ∧
          fs q = none
      · rw [if_pos h3]
        exact Or.inr rfl
      · rw [if_neg h3]
        exact Or.inl h
    · simp only [if_neg h2]
      exact Or.inl h
  · rw [if_neg h1]
    exact Or.inl h

theorem stepS_untouched (c : Cfg) (fs : FS) (f : String) (q : String)
    (hq : fs q ≠ none) (hk : q ≠ normPath (targetOf c f)) :
    stepS c fs f q = fs q := by
  rw [stepS]
  have h1 : stepDirFs c fs f q = fs q := stepDirFs_untouched c fs f q hq
  cases hsc : FS.get (stepDirFs c fs f) (targetOf c f) with
  | none =>
    show FS.set (stepDirFs c fs f) (targetOf c f) _ q = fs q
    rw [set_raw, if_neg hk]
    exact h1
  | some e =>
    cases e with
    | dir => exact h1
    | file =>
      show FS.set (stepDirFs c fs f) (targetOf c f) _ q = fs q
      rw [set_raw, if_neg hk]
      exact h1
    | link v =>
      show FS.set (stepDirFs c fs f) (targetOf c f) _ q = fs q
      rw [set_raw, if_neg hk]
      exact h1

theorem stepS_ne_none (c : Cfg) (fs : FS) (f : String) (q : String)
    (hq : fs q ≠ none) : stepS c fs f q ≠ none := by
  rw [stepS]
  have h1 : stepDirFs c fs f q = fs q := stepDirFs_untouched c fs f q hq
  by_cases hk : q = normPath (targetOf c f)
  · cases hsc : FS.get (stepDirFs c fs f) (targetOf c f) with
    | none =>
      show FS.set (stepDirFs c fs f) (targetOf c f) _ q ≠ none
      rw [set_raw, if_pos hk]
      exact fun hc => Option.noConfusion hc
    | some e =>
      cases e with
      | dir =>
        show stepDirFs c fs f q ≠ none
        rw [h1]
        exact hq
      | file =>
        show FS.set (stepDirFs c fs f) (targetOf c f) _ q ≠ none
        rw [set_raw, if_pos hk]
        exact fun hc => Option.noConfusion hc
      | link v =>
        show FS.set (stepDirFs c fs f) (targetOf c f) _ q ≠ none
        rw [set_raw, if_pos hk]
        exact fun hc => Option.noConfusion hc
  · cases hsc : FS.get (stepDirFs c fs f) (targetOf c f) with
    | none =>
      show FS.set (stepDirFs c fs f) (targetOf c f) _ q ≠ none
      rw [set_raw, if_neg hk, h1]
      exact hq
    | some e =>
      cases e with
      | dir =>
        show stepDirFs c fs f q ≠ none
        rw [h1]
        exact hq
      | file =>
        show FS.set (stepDirFs c fs f) (targetOf c f) _ q ≠ none
        rw [set_raw, if_neg hk, h1]
        exact hq
      | link v =>
        show FS.set (stepDirFs c fs f) (targetOf c f) _ q ≠ none
        rw [set_raw, if_neg hk, h1]
        exact hq

theorem stepS_dir (c : Cfg) (fs : FS) (f : String) (q : String)
    (hq : fs q = some Entry.dir) : stepS c fs f q = some Entry.dir := by
  rw [stepS]
  have h1 : stepDirFs c fs f q = fs q :=
    stepDirFs_untouched c fs f q (by rw [hq]; exact fun hc => Option.noConfusion hc)
  cases hsc : FS.get (stepDirFs c fs f) (targetOf c f) with
  | none =>
    have hk : q ≠ normPath (targetOf c f) := by
      intro hk
      rw [show FS.get (stepDirFs c fs f) (targetOf c f)
        = stepDirFs c fs f (normPath (targetOf c f)) from rfl, ← hk, h1, hq] at hsc
      exact Option.noConfusion hsc
    show FS.set (stepDirFs c fs f) (targetOf c f) _ q = some Entry.dir
    rw [set_raw, if_neg hk, h1]
    exact hq
  | some e =>
    cases e with
    | dir =>
      show stepDirFs c fs f q = some Entry.dir
      rw [h1]
      exact hq
    | file =>
      have hk : q ≠ normPath (targetOf c f) := by
        intro hk
        rw [show FS.get (stepDirFs c fs f) (targetOf c f)
          = stepDirFs c fs f (normPath (targetOf c f)) from rfl, ← hk, h1, hq] at hsc
        exact Entry.noConfusion (Option.some.inj hsc)
      show FS.set (stepDirFs c fs f) (targetOf c f) _ q = some Entry.dir
      rw [set_raw, if_neg hk, h1]
      exact hq
    | link v =>
      have hk : q ≠ normPath (targetOf c f) := by
        intro hk
        rw [show FS.get (stepDirFs c fs f) (targetOf c f)
          = stepDirFs c fs f (normPath (targetOf c f)) from rfl, ← hk, h1, hq] at hsc
        exact Entry.noConfusion (Option.some.inj hsc)
      show FS.set (stepDirFs c fs f) (targetOf c f) _ q = some Entry.dir
      rw [set_raw, if_neg hk, h1]
      exact hq

theorem stepS_nondir (c : Cfg) (fs : FS) (f : String) (q : String) (e : Entry)
    (hq : fs q = some e) (hne : e ≠ Entry.dir) :
    ∃ e2, stepS c fs f q = some e2 ∧ e2 ≠ Entry.dir := by
  rw [stepS]
  have h1 : stepDirFs c fs f q = fs q :=
    stepDirFs_untouched c fs f q (by rw [hq]; exact fun hc => Option.noConfusion hc)
  by_cases hk : q = normPath (targetOf c f)
  · cases hsc : FS.get (stepDirFs c fs f) (targetOf c f) with
    | none =>
      refine ⟨Entry.link (linkValue c f (targetOf c f)), ?_, fun hc => Entry.noConfusion hc⟩
      show FS.set (stepDirFs c fs f) (targetOf c f) _ q = _
      rw [set_raw, if_pos hk]
    | some e1 =>
      cases e1 with
      | dir =>
        exfalso
        rw [show FS.get (stepDirFs c fs f) (targetOf c f)
          = stepDirFs c fs f (normPath (targetOf c f)) from rfl, ← hk, h1, hq] at hsc
        exact hne (Option.some.inj hsc)
      | file =>
        refine ⟨Entry.link (linkValue c f (targetOf c f)), ?_, fun hc => Entry.noConfusion hc⟩
        show FS.set (stepDirFs c fs f) (targetOf c f) _ q = _
        rw [set_raw, if_pos hk]
      | link v =>
        refine ⟨Entry.link (linkValue c f (targetOf c f)), ?_, fun hc => Entry.noConfusion hc⟩
        show FS.set (stepDirFs c fs f) (targetOf c f) _ q = _
        rw [set_raw, if_pos hk]
  · refine ⟨e, ?_, hne⟩
    cases hsc : FS.get (stepDirFs c fs f) (targetOf c f) with
    | none =>
      show FS.set (stepDirFs c fs f) (targetOf c f) _ q = some e
      rw [set_raw, if_neg hk, h1]
      exact hq
    | some e1 =>
      cases e1 with
      | dir =>
        show stepDirFs c fs f q = some e
        rw [h1]
        exact hq
      | file =>
        show FS.set (stepDirFs c fs f) (targetOf c f) _ q = some e
        rw [set_raw, if_neg hk, h1]
        exact hq
      | link v =>
        show FS.set (stepDirFs c fs f) (targetOf c f) _ q = some e
        rw [set_raw, if_neg hk, h1]
        exact hq

theorem stepS_self (c : Cfg) (fs : FS) (f : String) :
    stepS c fs f (normPath (targetOf c f)) = some Entry.dir ∨
    stepS c fs f (normPath (targetOf c f))
      = some (Entry.link (linkValue c f (targetOf c f))) := by
  rw [stepS]
  cases hsc : FS.get (stepDirFs c fs f) (targetOf c f) with
  | none =>
    refine Or.inr ?_
    show FS.set (stepDirFs c fs f) (targetOf c f) _ (normPath (targetOf c f)) = _
    rw [set_raw, if_pos rfl]
  | some e =>
    cases e with
    | dir => exact Or.inl hsc
    | file =>
      refine Or.inr ?_
      show FS.set (stepDirFs c fs f) (targetOf c f) _ (normPath (targetOf c f)) = _
      rw [set_raw, if_pos rfl]
    | link v =>
      refine Or.inr ?_
      show FS.set (stepDirFs c fs f) (targetOf c f) _ (normPath (targetOf c f)) = _
      rw [set_raw, if_pos rfl]


theorem entry_match_nondir (e : Entry) (hne : e ≠ Entry.dir) :
    (match some e with
      | none => true
      | some Entry.dir => true
      | some _ => false) = false := by
  cases e with
  | dir => exact absurd rfl hne
  | file => rfl
  | link v => rfl

theorem conflictFree_congr (k : String) (fs fs2 : FS) (ch : List String)
    (h : SameOff k fs fs2) : conflictFree fs ch = conflictFree fs2 ch := by
  obtain ⟨hoff, e, e2, hk, hk2, hne, hne2⟩ := h
  rw [conflictFree, conflictFree]
  have hpt : (fun a => (match FS.get fs a with
      | none => true
      | some Entry.dir => true
      | some _ => false))
      = (fun a => (match FS.get fs2 a with
      | none => true
      | some Entry.dir => true
      | some _ => false)) := by
    funext a
    by_cases hq : normPath a = k
    · rw [show FS.get fs a = fs (normPath a) from rfl,
        show FS.get fs2 a = fs2 (normPath a) from rfl, hq, hk, hk2]
      rw [entry_match_nondir e hne, entry_match_nondir e2 hne2]
    · rw [show FS.get fs a = fs (normPath a) from rfl,
        show FS.get fs2 a = fs2 (normPath a) from rfl, hoff (normPath a) hq]
  rw [hpt]

theorem stepDirFs_off (c : Cfg) (f : String) (k : String) (fs fs2 : FS)
    (h : SameOff k fs fs2) :
    (∀ q, q ≠ k → stepDirFs c fs f q = stepDirFs c fs2 f q) ∧
    stepDirFs c fs f k = fs k ∧ stepDirFs c fs2 f k = fs2 k := by
  obtain ⟨hoff, e, e2, hk, hk2, hne, hne2⟩ := h
  have hkne : fs k ≠ none := by rw [hk]; exact fun hc => Option.noConfusion hc
  have hk2ne : fs2 k ≠ none := by rw [hk2]; exact fun hc => Option.noConfusion hc
  refine ⟨?_, stepDirFs_untouched c fs f k hkne, stepDirFs_untouched c fs2 f k hk2ne⟩
  intro q hq
  rw [stepDirFs, stepDirFs]
  have hguard : (FS.get fs (os_path_dirname (targetOf c f)) = none) ↔
      (FS.get fs2 (os_path_dirname (targetOf c f)) = none) := by
    by_cases hdk : normPath (os_path_dirname (targetOf c f)) = k
    · constructor <;> intro hc <;> exfalso
      · rw [show FS.get fs (os_path_dirname (targetOf c f))
          = fs (normPath (os_path_dirname (targetOf c f))) from rfl, hdk, hk] at hc
        exact Option.noConfusion hc
      · rw [show FS.get fs2 (os_path_dirname (targetOf c f))
          = fs2 (normPath (os_path_dirname (targetOf c f))) from rfl, hdk, hk2] at hc
        exact Option.noConfusion hc
    · rw [show FS.get fs (os_path_dirname (targetOf c f))
        = fs (normPath (os_path_dirname (targetOf c f))) from rfl,
        show FS.get fs2 (os_path_dirname (targetOf c f))
        = fs2 (normPath (os_path_dirname (targetOf c f))) from rfl,
        hoff (normPath (os_path_dirname (targetOf c f))) hdk]
  by_cases hg : FS.get fs (os_path_dirname (targetOf c f)) = none
  · rw [if_pos hg, if_pos (hguard.mp hg)]
    rw [conflictFree_congr k fs fs2 (ancChain (os_path_dirname (targetOf c f)))
      ⟨hoff, e, e2, hk, hk2, hne, hne2⟩]
    by_cases hcf : conflictFree fs2 (ancChain (os_path_dirname (targetOf c f)))
    · simp only [if_pos hcf]
      rw [mkAllFs, mkAllFs, hoff q hq]
    · simp only [if_neg hcf]
      exact hoff q hq
  · rw [if_neg hg, if_neg (fun hc => hg (hguard.mpr hc))]
    exact hoff q hq

theorem stepS_writer_eq (c : Cfg) (f : String) (k : String) (fs fs2 : FS)
    (h : SameOff k fs fs2) (hkey : normPath (targetOf c f) = k) :
    stepS c fs f = stepS c fs2 f := by
  obtain ⟨hA, hAk, hAk2⟩ := stepDirFs_off c f k fs fs2 h
  obtain ⟨hoff, e, e2, hk, hk2, hne, hne2⟩ := h
  rw [stepS, stepS]
  have hsc : FS.get (stepDirFs c fs f) (targetOf c f) = some e := by
    show stepDirFs c fs f (normPath (targetOf c f)) = some e
    rw [hkey, hAk, hk]
  have hsc2 : FS.get (stepDirFs c fs2 f) (targetOf c f) = some e2 := by
    show stepDirFs c fs2 f (normPath (targetOf c f)) = some e2
    rw [hkey, hAk2, hk2]
  rw [hsc, hsc2]
  have hfinal : FS.set (stepDirFs c fs f) (targetOf c f)
      (some (Entry.link (linkValue c f (targetOf c f))))
      = FS.set (stepDirFs c fs2 f) (targetOf c f)
      (some (Entry.link (linkValue c f (targetOf c f)))) := by
    funext q
    rw [set_raw, set_raw]
    by_cases hq : q = normPath (targetOf c f)
    · rw [if_pos hq, if_pos hq]
    · rw [if_neg hq, if_neg hq]
      exact hA q (fun hqc => hq (by rw [hqc, hkey]))
  cases e with
  | dir => exact absurd rfl hne
  | file =>
    cases e2 with
    | dir => exact absurd rfl hne2
    | file => exact hfinal
    | link w => exact hfinal
  | link v =>
    cases e2 with
    | dir => exact absurd rfl hne2
    | file => exact hfinal
    | link w => exact hfinal

theorem stepS_nonwriter (c : Cfg) (f : String) (k : String) (fs fs2 : FS)
    (h : SameOff k fs fs2) (hkey : normPath (targetOf c f) ≠ k) :
    SameOff k (stepS c fs f) (stepS c fs2 f) := by
  obtain ⟨hA, hAk, hAk2⟩ := stepDirFs_off c f k fs fs2 h
  obtain ⟨hoff, e, e2, hk, hk2, hne, hne2⟩ := h
  have hkne : fs k ≠ none := by rw [hk]; exact fun hc => Option.noConfusion hc
  have hk2ne : fs2 k ≠ none := by rw [hk2]; exact fun hc => Option.noConfusion hc
  constructor
  · intro q hq
    rw [stepS, stepS]
    have hsc_eq : FS.get (stepDirFs c fs f) (targetOf c f)
        = FS.get (stepDirFs c fs2 f) (targetOf c f) := by
      show stepDirFs c fs f (normPath (targetOf c f))
        = stepDirFs c fs2 f (normPath (targetOf c f))
      exact hA (normPath (targetOf c f)) hkey
    rw [hsc_eq]
    cases hsc : FS.get (stepDirFs c fs2 f) (targetOf c f) with
    | none =>
      show FS.set (stepDirFs c fs f) (targetOf c f) _ q
        = FS.set (stepDirFs c fs2 f) (targetOf c f) _ q
      rw [set_raw, set_raw]
      by_cases hqt : q = normPath (targetOf c f)
      · rw [if_pos hqt, if_pos hqt]
      · rw [if_neg hqt, if_neg hqt]
        exact hA q hq
    | some e1 =>
      cases e1 with
      | dir => exact hA q hq
      | file =>
        show FS.set (stepDirFs c fs f) (targetOf c f) _ q
          = FS.set (stepDirFs c fs2 f) (targetOf c f) _ q
        rw [set_raw, set_raw]
        by_cases hqt : q = normPath (targetOf c f)
        · rw [if_pos hqt, if_pos hqt]
        · rw [if_neg hqt, if_neg hqt]
          exact hA q hq
      | link v =>
        show FS.set (stepDirFs c fs f) (targetOf c f) _ q
          = FS.set (stepDirFs c fs2 f) (targetOf c f) _ q
        rw [set_raw, set_raw]
        by_cases hqt : q = normPath (targetOf c f)
        · rw [if_pos hqt, if_pos hqt]
        · rw [if_neg hqt, if_neg hqt]
          exact hA q hq
  · refine ⟨e, e2, ?_, ?_, hne, hne2⟩
    · rw [stepS_untouched c fs f k hkne (fun hqq => hkey hqq.symm)]
      exact hk
    · rw [stepS_untouched c fs2 f k hk2ne (fun hqq => hkey hqq.symm)]
      exact hk2


theorem foldl_ne_none (c : Cfg) : ∀ (l : List String) (fs : FS) (q : String),
    fs q ≠ none → l.foldl (stepS c) fs q ≠ none := by
  intro l
  induction l with
  | nil => intro fs q h; exact h
  | cons f rest ih =>
    intro fs q h
    rw [List.foldl_cons]
    exact ih (stepS c fs f) q (stepS_ne_none c fs f q h)

theorem foldl_dir (c : Cfg) : ∀ (l : List String) (fs : FS) (q : String),
    fs q = some Entry.dir → l.foldl (stepS c) fs q = some Entry.dir := by
  intro l
  induction l with
  | nil => intro fs q h; exact h
  | cons f rest ih =>
    intro fs q h
    rw [List.foldl_cons]
    exact ih (stepS c fs f) q (stepS_dir c fs f q h)

theorem foldl_nondir (c : Cfg) : ∀ (l : List String) (fs : FS) (q : String) (e : Entry),
    fs q = some e → e ≠ Entry.dir →
    ∃ e2, l.foldl (stepS c) fs q = some e2 ∧ e2 ≠ Entry.dir := by
  intro l
  induction l with
  | nil => intro fs q e h hne; exact ⟨e, h, hne⟩
  | cons f rest ih =>
    intro fs q e h hne
    rw [List.foldl_cons]
    obtain ⟨e1, h1, hne1⟩ := stepS_nondir c fs f q e h hne
    exact ih (stepS c fs f) q e1 h1 hne1

theorem foldl_untouched (c : Cfg) (k : String) : ∀ (l : List String) (fs : FS),
    (∀ g ∈ l, normPath (targetOf c g) ≠ k) → fs k ≠ none →
    l.foldl (stepS c) fs k = fs k := by
  intro l
  induction l with
  | nil => intro fs _ _; rfl
  | cons f rest ih =>
    intro fs hno hne
    rw [List.foldl_cons]
    have hstep : stepS c fs f k = fs k :=
      stepS_untouched c fs f k hne (fun hqq => hno f (List.mem_cons_self f rest) hqq.symm)
    rw [ih (stepS c fs f) (fun g hg => hno g (List.mem_cons_of_mem f hg)) (by rw [hstep]; exact hne)]
    exact hstep

theorem foldl_writer_eq (c : Cfg) (k : String) : ∀ (l : List String) (fs fs2 : FS),
    SameOff k fs fs2 → (∃ g ∈ l, normPath (targetOf c g) = k) →
    l.foldl (stepS c) fs = l.foldl (stepS c) fs2 := by
  intro l
  induction l with
  | nil =>
    intro fs fs2 _ hw
    obtain ⟨g, hg, _⟩ := hw
    exact absurd hg (List.not_mem_nil g)
  | cons g0 rest ih =>
    intro fs fs2 h hw
    rw [List.foldl_cons, List.foldl_cons]
    by_cases hkey : normPath (targetOf c g0) = k
    · rw [stepS_writer_eq c g0 k fs fs2 h hkey]
    · obtain ⟨g, hgm, hgk⟩ := hw
      have hgrest : g ∈ rest := by
        rcases List.mem_cons.mp hgm with hgg | hgr
        · exact absurd (hgg ▸ hgk) hkey
        · exact hgr
      exact ih (stepS c fs g0) (stepS c fs2 g0)
        (stepS_nonwriter c g0 k fs fs2 h hkey) ⟨g, hgrest, hgk⟩

theorem stepDirFs_stable (c : Cfg) (fs : FS) (f : String) (l : List String) :
    stepDirFs c (l.foldl (stepS c) (stepS c fs f)) f = l.foldl (stepS c) (stepS c fs f) := by
  rw [stepDirFs]
  by_cases hgB : FS.get (l.foldl (stepS c) (stepS c fs f)) (os_path_dirname (targetOf c f)) = none
  · rw [if_pos hgB]
    by_cases hg : FS.get fs (os_path_dirname (targetOf c f)) = none
    · by_cases hcf : conflictFree fs (ancChain (os_path_dirname (targetOf c f)))
      · exfalso
        have h1 : stepDirFs c fs f (normPath (os_path_dirname (targetOf c f))) = some Entry.dir := by
          rw [stepDirFs, if_pos hg, if_pos hcf, mkAllFs]
          rw [if_pos ⟨⟨os_path_dirname (targetOf c f), ancChain_self _, rfl⟩, hg⟩]
        have h2 : stepS c fs f (normPath (os_path_dirname (targetOf c f))) = some Entry.dir := by
          rw [stepS]
          cases hsc : FS.get (stepDirFs c fs f) (targetOf c f) with
          | none =>
            show FS.set (stepDirFs c fs f) (targetOf c f)
              (some (Entry.link (linkValue c f (targetOf c f))))
              (normPath (os_path_dirname (targetOf c f))) = some Entry.dir
            rw [set_raw]
            by_cases hqt : normPath (os_path_dirname (targetOf c f)) = normPath (targetOf c f)
            · exfalso
              rw [show FS.get (stepDirFs c fs f) (targetOf c f)
                = stepDirFs c fs f (normPath (targetOf c f)) from rfl, ← hqt, h1] at hsc
              exact Option.noConfusion hsc
            · rw [if_neg hqt]; exact h1
          | some e1 =>
            cases e1 with
            | dir => exact h1
            | file =>
              show FS.set (stepDirFs c fs f) (targetOf c f)
                (some (Entry.link (linkValue c f (targetOf c f))))
                (normPath (os_path_dirname (targetOf c f))) = some Entry.dir
              rw [set_raw]
              by_cases hqt : normPath (os_path_dirname (targetOf c f)) = normPath (targetOf c f)
              · exfalso
                rw [show FS.get (stepDirFs c fs f) (targetOf c f)
                  = stepDirFs c fs f (normPath (targetOf c f)) from rfl, ← hqt, h1] at hsc
                exact Entry.noConfusion (Option.some.inj hsc)
              · rw [if_neg hqt]; exact h1
            | link v =>
              show FS.set (stepDirFs c fs f) (targetOf c f)
                (some (Entry.link (linkValue c f (targetOf c f))))
                (normPath (os_path_dirname (targetOf c f))) = some Entry.dir
              rw [set_raw]
              by_cases hqt : normPath (os_path_dirname (targetOf c f)) = normPath (targetOf c f)
              · exfalso
                rw [show FS.get (stepDirFs c fs f) (targetOf c f)
                  = stepDirFs c fs f (normPath (targetOf c f)) from rfl, ← hqt, h1] at hsc
                exact Entry.noConfusion (Option.some.inj hsc)
              · rw [if_neg hqt]; exact h1
        have h3 := foldl_dir c l (stepS c fs f) (normPath (os_path_dirname (targetOf c f))) h2
        rw [show FS.get (l.foldl (stepS c) (stepS c fs f)) (os_path_dirname (targetOf c f))
          = l.foldl (stepS c) (stepS c fs f) (normPath (os_path_dirname (targetOf c f))) from rfl,
          h3] at hgB
        exact Option.noConfusion hgB
      · have hcff : conflictFree fs (ancChain (os_path_dirname (targetOf c f))) = false :=
          Bool.not_eq_true _ ▸ eq_false_of_ne_true hcf
        obtain ⟨a, ha, e, hgae, hene⟩ := conflictFree_false_elim fs _ hcff
        obtain ⟨e2, hstep, hene2⟩ := stepS_nondir c fs f (normPath a) e hgae hene
        obtain ⟨e3, hBa, hene3⟩ := foldl_nondir c l (stepS c fs f) (normPath a) e2 hstep hene2
        have hBcf : conflictFree (l.foldl (stepS c) (stepS c fs f))
            (ancChain (os_path_dirname (targetOf c f))) = false :=
          conflictFree_false_of_entry _ _ a e3 ha hBa hene3
        rw [if_neg (by rw [hBcf]; exact Bool.noConfusion)]
    · exfalso
      have h1 : stepDirFs c fs f (normPath (os_path_dirname (targetOf c f)))
          = fs (normPath (os_path_dirname (targetOf c f))) :=
        stepDirFs_untouched c fs f _ hg
      have h2 : stepS c fs f (normPath (os_path_dirname (targetOf c f))) ≠ none :=
        stepS_ne_none c fs f _ hg
      have h3 := foldl_ne_none c l (stepS c fs f) _ h2
      exact h3 hgB
  · rw [if_neg hgB]


theorem foldl_stepS_idem (c : Cfg) : ∀ (l : List String) (fs : FS),
    l.foldl (stepS c) (l.foldl (stepS c) fs) = l.foldl (stepS c) fs := by
  intro l
  induction l with
  | nil => intro fs; rfl
  | cons f rest ih =>
    intro fs
    rw [List.foldl_cons, List.foldl_cons]
    have hBB : rest.foldl (stepS c) (rest.foldl (stepS c) (stepS c fs f))
        = rest.foldl (stepS c) (stepS c fs f) := ih (stepS c fs f)
    have hstab := stepDirFs_stable c fs f rest
    cases hbt : FS.get (rest.foldl (stepS c) (stepS c fs f)) (targetOf c f) with
    | none =>
      exfalso
      have hne : stepS c fs f (normPath (targetOf c f)) ≠ none := by
        rcases stepS_self c fs f with h | h <;> rw [h] <;> exact fun hc => Option.noConfusion hc
      exact foldl_ne_none c rest (stepS c fs f) (normPath (targetOf c f)) hne hbt
    | some e =>
      by_cases hed : e = Entry.dir
      · have hstepB : stepS c (rest.foldl (stepS c) (stepS c fs f)) f
            = rest.foldl (stepS c) (stepS c fs f) := by
          rw [stepS, hstab, hbt, hed]
        rw [hstepB]
        exact hBB
      · have hstepB : stepS c (rest.foldl (stepS c) (stepS c fs f)) f
            = FS.set (rest.foldl (stepS c) (stepS c fs f)) (targetOf c f)
              (some (Entry.link (linkValue c f (targetOf c f)))) := by
          rw [stepS, hstab, hbt]
          cases e with
          | dir => exact absurd rfl hed
          | file => rfl
          | link v => rfl
        rw [hstepB]
        by_cases hev : e = Entry.link (linkValue c f (targetOf c f))
        · rw [set_id (rest.foldl (stepS c) (stepS c fs f)) (targetOf c f) _
            (by rw [← hev]; exact hbt)]
          exact hBB
        · rcases stepS_self c fs f with hsd | hsl
          · exfalso
            have hfd := foldl_dir c rest (stepS c fs f) (normPath (targetOf c f)) hsd
            rw [show FS.get (rest.foldl (stepS c) (stepS c fs f)) (targetOf c f)
              = rest.foldl (stepS c) (stepS c fs f) (normPath (targetOf c f)) from rfl,
              hfd] at hbt
            exact hed (Option.some.inj hbt).symm
          · by_cases hw : ∃ g ∈ rest, normPath (targetOf c g) = normPath (targetOf c f)
            · have hSO : SameOff (normPath (targetOf c f))
                  (FS.set (rest.foldl (stepS c) (stepS c fs f)) (targetOf c f)
                    (some (Entry.link (linkValue c f (targetOf c f)))))
                  (rest.foldl (stepS c) (stepS c fs f)) := by
                constructor
                · intro q hq
                  rw [set_raw, if_neg hq]
                · refine ⟨Entry.link (linkValue c f (targetOf c f)), e, ?_, hbt, ?_, hed⟩
                  · rw [set_raw, if_pos rfl]
                  · exact fun hc => Entry.noConfusion hc
              rw [foldl_writer_eq c (normPath (targetOf c f)) rest _ _ hSO hw]
              exact hBB
            · exfalso
              push_neg at hw
              have hne0 : stepS c fs f (normPath (targetOf c f)) ≠ none := by
                rw [hsl]; exact fun hc => Option.noConfusion hc
              have hfu := foldl_untouched c (normPath (targetOf c f)) rest (stepS c fs f) hw hne0
              rw [show FS.get (rest.foldl (stepS c) (stepS c fs f)) (targetOf c f)
                = rest.foldl (stepS c) (stepS c fs f) (normPath (targetOf c f)) from rfl,
                hfu, hsl] at hbt
              exact hev (Option.some.inj hbt).symm

/-- C5: re-running create mode with the replace/execute conflict policy over the
filesystem state left by a first run, with the same file list and configuration,
leaves the destination filesystem unchanged: the second run is idempotent. -/
theorem c5_idempotent (c : Cfg) (files : List String) (fs : FS)
    (inputs inputs2 : List String)
    (hm : c.mode = Mode.create) (ha : c.action = OnExists.execute) :
    (decorate_symlinks c files (decorate_symlinks c files fs inputs).fs inputs2).fs
      = (decorate_symlinks c files fs inputs).fs := by
  rw [decorate_execute_create_fs c files fs inputs hm ha,
    decorate_execute_create_fs c files (files.foldl (stepS c) fs) inputs2 hm ha]
  exact foldl_stepS_idem c files fs

theorem c5_idempotent_witness :
    cfgCreate.mode = Mode.create ∧ cfgCreate.action = OnExists.execute ∧
    (decorate_symlinks cfgCreate ("/s/a/b.txt" :: [])
        (decorate_symlinks cfgCreate ("/s/a/b.txt" :: []) fsPlain []).fs []).fs
      = (decorate_symlinks cfgCreate ("/s/a/b.txt" :: []) fsPlain []).fs :=
  ⟨rfl, rfl, c5_idempotent cfgCreate ("/s/a/b.txt" :: []) fsPlain [] [] rfl rfl⟩

end Decorate
